import Mathlib

/-!
# Verification of the `file_merge` identity-tracking and deduplication engine

Shallow embedding of `file_merge/inode.py` (classes `INodeFile` and
`INodeFileList`) together with the parts of `file_merge/utils.py`
(`SortableDict`, `verbose`) that they use.

Modelling conventions:

* A Python `INodeFile` becomes the structure `INodeFile`.  The lazily cached
  hash attributes `_prefix_md5sum`, `_md5sum`, `_sha1sum` become `Option
  String` fields (`none` = attribute not set).  `merged_into` holds the inode
  number of the record the file was merged into (the Python field holds the
  record object itself; records are identified by their inode).
* The Python `set` of paths becomes a `List String` in iteration order;
  collection-level invariants (no duplicates) appear as theorem hypotheses.
* The filesystem is a structure `FS`: a partial map from paths to inode
  numbers, per-inode file content (every path of a record is a hardlink to
  its inode, so `open(self.file)` reads the content stored for the inode),
  a permission oracle deciding which directory entries may be modified, and
  the two digest functions (md5 / sha1 are opaque; only the chunked reading
  protocol of `INodeFile.hash` is part of the source).
* Fallible operations return `Option`/`Except`; `none`/`.error` models a
  raised Python exception.
* State mutation becomes explicit state passing: methods that mutate
  `self`/`other`/the filesystem return the updated values.
-/

namespace FileMerge

/-- File content as a byte sequence. -/
abbrev Bytes := List Nat

/-- Classification of a directory entry, as by `stat.S_ISDIR` / `stat.S_ISREG`:
a directory, a regular file, or anything else (symlink, device, ...). -/
inductive FMode where
  | dir
  | regular
  | other
deriving DecidableEq, Repr

/-- The filesystem model.

`ino p = none` means the path `p` does not exist (`os.lstat` raises
`FileNotFoundError`).  `content i` is the byte content of inode `i`.
`mode p` classifies an existing path.  `perm p` tells whether the directory
entry for `p` may be created/removed/renamed (a `False` models the `OSError`
-- commonly a permission error -- caught in `INodeFile.merge`).
`walk d` enumerates the regular files below directory `d` (the paths
produced by `os.walk`).  `md5fn`/`sha1fn` are the digest functions
(`hashlib.md5().hexdigest()` / `hashlib.sha1().hexdigest()` over a byte
sequence), kept abstract. -/
structure FS where
  ino : String → Option Nat
  content : Nat → Bytes
  mode : String → FMode
  perm : String → Bool
  walk : String → List String
  md5fn : Bytes → String
  sha1fn : Bytes → String

/-- `os.rename(src, dst)`: fails if `src` does not exist or permission is
denied; otherwise the entry moves (overwriting `dst` if present). -/
def FS.rename (fs : FS) (src dst : String) : Option FS :=
  match fs.ino src with
  | none => none
  | some i =>
      if fs.perm src && fs.perm dst then
        some { fs with
               ino := fun p => if p = dst then some i
                               else if p = src then none else fs.ino p }
      else none

/-- `os.link(src, dst)`: fails if `src` does not exist, `dst` already
exists, or permission is denied; otherwise `dst` becomes a new hardlink to
`src`'s inode. -/
def FS.link (fs : FS) (src dst : String) : Option FS :=
  match fs.ino src with
  | none => none
  | some i =>
      match fs.ino dst with
      | some _ => none
      | none =>
          if fs.perm dst then
            some { fs with ino := fun p => if p = dst then some i else fs.ino p }
          else none

/-- `os.remove(p)`: fails if `p` does not exist or permission is denied;
otherwise the entry disappears. -/
def FS.remove (fs : FS) (p : String) : Option FS :=
  match fs.ino p with
  | none => none
  | some _ =>
      if fs.perm p then
        some { fs with ino := fun q => if q = p then none else fs.ino q }
      else none

/-- One identity record (`class INodeFile`).  Field name mapping to the
source: `pmd5` is `_prefix_md5sum`, `fmd5` is `_md5sum`, `fsha1` is
`_sha1sum` (the leading-underscore cache attributes; `none` models the
attribute being absent), `files` is `files`, `merged_into` is `merged_into`
(holding the inode of the target record). -/
structure INodeFile where
  inode : Nat
  size : Nat
  pmd5 : Option String
  fmd5 : Option String
  fsha1 : Option String
  files : List String
  merged_into : Option Nat
deriving DecidableEq, Repr

namespace INodeFile

/-- `INodeFile.file`: `next(iter(self.files))` -- one path of the record.
The Python call raises on an empty set; records are live with at least one
path wherever it is used, so the default is irrelevant there. -/
def file (r : INodeFile) : String := r.files.headD ""

/-- `INodeFile.hash(algo, only_first_part)`: the file is read in 1280-byte
blocks through `algo.update`; with `only_first_part` the loop stops after
the first block.  Net effect: the digest of the first 1280 bytes, or of the
whole content.  Modelling convention: the read is taken as a total function
of the inode's content; the source opens `self.file` by path, and a missing
or unreadable file there raises an uncaught `OSError` (the specification's
ReadFailure), so theorems about runs that may compute digests on demand
must carry hypotheses keeping the source off that path (the C5 theorem
assumes cached digests, under which the source performs no read at all). -/
def hashDigest (algo : Bytes → String) (onlyFirstPart : Bool) (content : Bytes) : String :=
  if onlyFirstPart then algo (content.take 1280) else algo content

/-- Property `prefix_md5sum`: return the cached `_prefix_md5sum` if present,
else compute `hash(md5, only_first_part=True)`, cache and return it.
Returns the value together with the (possibly) updated record. -/
def prefixMd5sum (fs : FS) (r : INodeFile) : String × INodeFile :=
  match r.pmd5 with
  | some h => (h, r)
  | none =>
      let h := hashDigest fs.md5fn true (fs.content r.inode)
      (h, { r with pmd5 := some h })

/-- Property `md5sum`: cached `_md5sum` or `hash(md5)` over the whole file. -/
def md5sum (fs : FS) (r : INodeFile) : String × INodeFile :=
  match r.fmd5 with
  | some h => (h, r)
  | none =>
      let h := hashDigest fs.md5fn false (fs.content r.inode)
      (h, { r with fmd5 := some h })

/-- Property `sha1sum`: cached `_sha1sum` or `hash(sha1)` over the whole file. -/
def sha1sum (fs : FS) (r : INodeFile) : String × INodeFile :=
  match r.fsha1 with
  | some h => (h, r)
  | none =>
      let h := hashDigest fs.sha1fn false (fs.content r.inode)
      (h, { r with fsha1 := some h })

/-- The value the `prefix_md5sum` property returns (cached or computed). -/
def pVal (fs : FS) (r : INodeFile) : String :=
  r.pmd5.getD (hashDigest fs.md5fn true (fs.content r.inode))

/-- The value the `md5sum` property returns (cached or computed). -/
def mVal (fs : FS) (r : INodeFile) : String :=
  r.fmd5.getD (hashDigest fs.md5fn false (fs.content r.inode))

/-- The value the `sha1sum` property returns (cached or computed). -/
def sVal (fs : FS) (r : INodeFile) : String :=
  r.fsha1.getD (hashDigest fs.sha1fn false (fs.content r.inode))

/-- `INodeFile.__eq__`: inode equality short-circuits to `True`; a size
mismatch gives `False`; otherwise the three hash *properties* are compared
in turn (each access computes and caches a missing digest).  Returns the
truth value together with both records as mutated by those accesses. -/
def eqCheck (fs : FS) (a b : INodeFile) : Bool × INodeFile × INodeFile :=
  if a.inode = b.inode then (true, a, b)
  else if a.size ≠ b.size then (false, a, b)
  else
    let (pa, a1) := prefixMd5sum fs a
    let (pb, b1) := prefixMd5sum fs b
    if pa ≠ pb then (false, a1, b1)
    else
      let (ma, a2) := md5sum fs a1
      let (mb, b2) := md5sum fs b1
      if ma ≠ mb then (false, a2, b2)
      else
        let (sa, a3) := sha1sum fs a2
        let (sb, b3) := sha1sum fs b2
        if sa ≠ sb then (false, a3, b3) else (true, a3, b3)

/-- `set.add`: append a path unless already present (Python set insertion,
modelled on the iteration-order list). -/
def insertPath (l : List String) (p : String) : List String :=
  if p ∈ l then l else l ++ [p]

/-- `set.update`: add every path of `m` in turn. -/
def unionPaths (l m : List String) : List String := m.foldl insertPath l

/-- `INodeFile.addfile` with a path-string argument: `os.lstat(path)`
(raising, hence `none`, if the path does not exist), compare `st_ino` to
`self.inode`; on a match record the path and return `True`, else return
`False` and leave the record unchanged.  The `UnicodeEncodeError` recovery
branch of the source renames files whose names are not valid UTF-8; Lean
strings are always valid Unicode, so that branch has no model. -/
def addfilePath (fs : FS) (r : INodeFile) (path : String) : Option (Bool × INodeFile) :=
  match fs.ino path with
  | none => none
  | some i =>
      if i = r.inode then some (true, { r with files := insertPath r.files path })
      else some (false, r)

/-- `INodeFile.addfile` with an `INodeFile` argument: `if self == path`
(the `__eq__` of `eqCheck`, *not* an inode stat) then take over all of the
other record's paths and return `True`, else return `False`.  The records
are returned as mutated by the hash accesses of `__eq__`. -/
def addfileRecord (fs : FS) (r other : INodeFile) : Bool × INodeFile × INodeFile :=
  let (e, r1, o1) := eqCheck fs r other
  if e then (true, { r1 with files := unionPaths r1.files o1.files }, o1)
  else (false, r1, o1)

/-- The rename/link/remove sequence of `INodeFile.merge` for one path,
threading the filesystem.  Returns the filesystem as left behind and
whether all three operations succeeded (`except OSError` leaves the state
of the operations already performed in place). -/
def mergePathOps (fs : FS) (selfFile path : String) : FS × Bool :=
  let backup := path ++ ".file_merge-bu"
  match fs.rename path backup with
  | none => (fs, false)
  | some fs1 =>
      match fs1.link selfFile path with
      | none => (fs1, false)
      | some fs2 =>
          match fs2.remove backup with
          | none => (fs2, false)
          | some fs3 => (fs3, true)

/-- One iteration of the loop in `INodeFile.merge`: run the three
filesystem operations for `path`; on `OSError` only a warning is reported
(`self` unchanged), otherwise `self.addfile(path)` records the path.
(The `addfile` stat cannot fail here: after a successful `link` the path
exists; if its inode does not match `self.inode` the `False` result is
discarded, as the source discards it.) -/
def mergeStep (st : FS × INodeFile) (path : String) : FS × INodeFile :=
  let (fs, slf) := st
  match mergePathOps fs slf.file path with
  | (fs1, false) => (fs1, slf)
  | (fs1, true) =>
      match addfilePath fs1 slf path with
      | none => (fs1, slf)
      | some (_, slf1) => (fs1, slf1)

/-- `INodeFile.merge(other)`: run the rename/link/remove sequence for every
path of `other`, then set `other.merged_into = self` unconditionally.
Returns the final filesystem, the updated `self` and the tombstoned
`other`. -/
def mergeRec (fs : FS) (slf other : INodeFile) : FS × INodeFile × INodeFile :=
  let (fs1, slf1) := other.files.foldl mergeStep (fs, slf)
  (fs1, slf1, { other with merged_into := some slf.inode })

end INodeFile

/-! ## The persistence codec

`INodeFile.dump` renders `"%s\0%s\0%s\0%s\0%s\0%s"`; the string branch of
`INodeFile.__init__` splits on `'\0'` and re-populates the fields.  Python
strings are modelled as `List Char` here so that splitting, joining and
stripping can be reasoned about directly; `String.mk`/`String.data` convert
at the boundaries. -/

/-- The `'\0'` field separator. -/
def nullChar : Char := Char.ofNat 0

/-- The `'\n'` record separator used by `INodeFileList.dump`. -/
def nlChar : Char := Char.ofNat 10

/-- `str.split(sep)` for a one-character separator: splits at every
occurrence, keeping empty parts (`"".split` gives `[""]`). -/
def splitChar (sep : Char) : List Char → List (List Char)
  | [] => [[]]
  | c :: cs =>
      if c = sep then [] :: splitChar sep cs
      else
        match splitChar sep cs with
        | [] => [[c]]
        | g :: gs => (c :: g) :: gs

/-- `sep.join(parts)` for a one-character separator. -/
def joinChar (sep : Char) : List (List Char) → List Char
  | [] => []
  | [l] => l
  | l :: ls => l ++ sep :: joinChar sep ls

/-- Decimal digit character, `'0'`..`'9'`. -/
def digitChar (d : Nat) : Char := Char.ofNat (48 + d)

/-- Decimal digits of `n`, most significant first; `fuel` bounds the
recursion depth and is always supplied as at least `n`, so it never runs
out. -/
def natToDecAux : Nat → Nat → List Char
  | 0, _ => []
  | _ + 1, 0 => []
  | fuel + 1, n + 1 => natToDecAux fuel ((n + 1) / 10) ++ [digitChar ((n + 1) % 10)]

/-- `'%s' % n` for a natural number: its decimal representation. -/
def natToDec (n : Nat) : List Char :=
  if n = 0 then [digitChar 0] else natToDecAux n n

/-- Is the character a decimal digit? -/
def isDigitChar (ch : Char) : Bool := decide (48 ≤ ch.toNat ∧ ch.toNat ≤ 57)

/-- `int(s)` in the canonical case: a nonempty all-digit string parses to
the denoted number, anything else raises `ValueError` (modelled `none`;
the signs/whitespace/underscore forms `int` also accepts never arise from
`dump` output). -/
def parseNatDec (cs : List Char) : Option Nat :=
  if cs ≠ [] ∧ cs.all isDigitChar then
    some (cs.foldl (fun n ch => 10 * n + (ch.toNat - 48)) 0)
  else none

/-- `str.strip()` whitespace test (the ASCII whitespace characters
`' '`, `'\t'`, `'\n'`, `'\v'`, `'\f'`, `'\r'`). -/
def pyWhitespace (ch : Char) : Bool :=
  decide (ch.toNat = 32 ∨ (9 ≤ ch.toNat ∧ ch.toNat ≤ 13))

/-- `str.strip()`: drop leading and trailing whitespace. -/
def pyStrip (cs : List Char) : List Char :=
  ((cs.dropWhile pyWhitespace).reverse.dropWhile pyWhitespace).reverse

namespace INodeFile

/-- `INodeFile.dump`: one line
`inode \0 size \0 _prefix_md5sum \0 _md5sum \0 _sha1sum \0 path \0 path ...`
with an absent hash attribute rendered as the empty string
(`getattr(self, '_...', '')`).  The tombstone state `merged_into` is not
part of the format. -/
def dumpLine (r : INodeFile) : List Char :=
  natToDec r.inode ++ nullChar :: (natToDec r.size
    ++ nullChar :: ((r.pmd5.getD "").data
    ++ nullChar :: ((r.fmd5.getD "").data
    ++ nullChar :: ((r.fsha1.getD "").data
    ++ nullChar :: joinChar nullChar (r.files.map String.data)))))

/-- The load branch of `INodeFile.__init__` (`firstfile` contains `'\0'`):
split on `'\0'`; `int(data[0])`/`int(data[1])` give inode and size (a
parse failure raises `ValueError`), an empty hash field stays absent,
`set(data[5:])` restores the paths (`dedup` models the set), and
`merged_into` is always initialised to `None`.  Fewer than five fields
raise `IndexError` (`none`). -/
def parseLine (cs : List Char) : Option INodeFile :=
  match splitChar nullChar cs with
  | d0 :: d1 :: d2 :: d3 :: d4 :: rest =>
      match parseNatDec d0, parseNatDec d1 with
      | some i, some s =>
          some { inode := i, size := s,
                 pmd5 := if d2 = [] then none else some (String.mk d2),
                 fmd5 := if d3 = [] then none else some (String.mk d3),
                 fsha1 := if d4 = [] then none else some (String.mk d4),
                 files := (rest.map String.mk).dedup,
                 merged_into := none }
      | _, _ => none
  | _ => none

/-- `INodeFile.__init__(firstfile)`: a string containing `'\0'` is parsed
as a dumped record; otherwise it is a path, `os.lstat` fills inode and
size (raising if the path does not exist) and `addfile` records the path.
`merged_into` starts as `None`. -/
def init (fs : FS) (firstfile : String) : Option INodeFile :=
  if nullChar ∈ firstfile.data then parseLine firstfile.data
  else
    match fs.ino firstfile with
    | none => none
    | some i =>
        some { inode := i, size := (fs.content i).length,
               pmd5 := none, fmd5 := none, fsha1 := none,
               files := [firstfile], merged_into := none }

end INodeFile

/-! ## The ordered collection (`class INodeFileList`)

`SortableDict` keys every record by its inode and keeps the keys in
insertion order; the model is the list of records in key order (the
dictionary structure makes duplicate inodes impossible, which the list
model states as `Nodup` hypotheses where needed). -/

/-- A Python exception, for operations whose failure mode matters. -/
inductive PyError where
  | nameError (missing : String)
  | fileNotFound (path : String)
  | typeError
deriving DecidableEq, Repr

/-- `self.storage[i]` lookup. -/
def lookupInode (c : List INodeFile) (i : Nat) : Option INodeFile :=
  c.find? (fun r => decide (r.inode = i))

/-- `self.storage[item.inode] = item` (`SortableDict.__setitem__`): replace
the record stored under the inode, or append a new key. -/
def setItem (c : List INodeFile) (item : INodeFile) : List INodeFile :=
  if c.any (fun r => decide (r.inode = item.inode)) then
    c.map (fun r => if r.inode = item.inode then item else r)
  else c ++ [item]

namespace INodeFileList

/-- The `INodeFile` branch of `INodeFileList.add`: merge into the record
already stored under the same inode via `addfile` (whose result is
discarded), or store the new record (`except KeyError`). -/
def addRecord (fs : FS) (c : List INodeFile) (item : INodeFile) : List INodeFile :=
  match lookupInode c item.inode with
  | some existing =>
      c.map (fun r => if r.inode = item.inode
                      then (INodeFile.addfileRecord fs existing item).2.1 else r)
  | none => c ++ [item]

/-- The `str` branch of `INodeFileList.add`: `os.lstat` the path.  The
handler for a missing file and the branch for a non-regular file both call
`verbose(..., DEBUG)` -- but `inode.py` imports `DEVEL`, not `DEBUG`, so
both branches raise `NameError` instead of logging.  A directory is walked
and every regular file below it is added; a regular file is wrapped in an
`INodeFile` and added. -/
def addStr (fs : FS) (c : List INodeFile) (path : String) : Except PyError (List INodeFile) :=
  match fs.ino path with
  | none => .error (.nameError "DEBUG")
  | some _ =>
      match fs.mode path with
      | .dir =>
          (fs.walk path).foldlM (fun acc p =>
            match INodeFile.init fs p with
            | none => .error (.fileNotFound p)
            | some r => .ok (addRecord fs acc r)) c
      | .regular =>
          match INodeFile.init fs path with
          | none => .error (.fileNotFound path)
          | some r => .ok (addRecord fs c r)
      | .other => .error (.nameError "DEBUG")

/-- `INodeFileList.dump`: every record on its own line, in collection
order (`save_file.write('%s\n' % item.dump())`). -/
def dumpFile (c : List INodeFile) : List Char :=
  (c.map (fun r => r.dumpLine ++ [nlChar])).flatten

/-- `f.readlines()`: the chunks of the file ending in `'\n'` (terminator
kept), plus a final unterminated chunk if nonempty. -/
def readlines (cs : List Char) : List (List Char) :=
  let parts := splitChar nlChar cs
  parts.dropLast.map (fun l => l ++ [nlChar])
    ++ (match parts.getLast? with
        | none => []
        | some l => if l = [] then [] else [l])

/-- `INodeFileList.load`: for every line of the file,
`INodeFile(line.strip())` (whose parse failure propagates) is stored
directly by inode (`self.storage[item.inode] = item`). -/
def load (fs : FS) (c : List INodeFile) (fileContent : List Char) : Option (List INodeFile) :=
  (readlines fileContent).foldlM (fun acc line =>
    (INodeFile.init fs (String.mk (pyStrip line))).map (fun item => setItem acc item)) c

end INodeFileList

/-! ## `INodeFileList.iter_list` -/

/-- The inner `yield_condition` of `iter_list`: a run is yielded only if it
has more than one member and its first member's size exceeds `size_limit`
(the `or` short-circuits, so the first member is only inspected for a
nonempty run). -/
def yieldCondition (sizeLimit : Nat) : List INodeFile → Bool
  | [] => false
  | h :: t =>
      if (h :: t).length ≤ 1 then false
      else if h.size ≤ sizeLimit then false
      else true

/-- The loop of `iter_list`: records are taken in (sorted) order; while the
attribute value equals `value` they are accumulated into the current run
(the sub-collection `add` keys by inode and every record of a collection
has a distinct inode, so adding is appending); at a value change the run
is yielded if `yield_condition` holds and a fresh run starts; the final
run is yielded under the same condition. -/
def iterLoop {κ : Type} [DecidableEq κ] (key : INodeFile → κ) (sizeLimit : Nat) :
    List INodeFile → κ → List INodeFile → List (List INodeFile)
  | [], _, acc => if yieldCondition sizeLimit acc then [acc] else []
  | r :: rest, v, acc =>
      if key r = v then iterLoop key sizeLimit rest v (acc ++ [r])
      else
        (if yieldCondition sizeLimit acc then [acc] else [])
          ++ iterLoop key sizeLimit rest (key r) [r]

/-- `INodeFileList.iter_list(sort_attribute, size_limit)`, generically in
the attribute: `sort_by_attribute` re-sorts `self` (stable sort by the
attribute, `reverse=True` exactly for `size`, expressed by the relation
`rel`), then `value = getattr(self.value_for_index(0), sort_attribute)`
raises `IndexError` on an empty collection (`none`), and the loop yields
the equal-value runs.  Returns the re-sorted `self` together with the
yielded runs. -/
def iterListBy {κ : Type} [DecidableEq κ] (key : INodeFile → κ)
    (rel : INodeFile → INodeFile → Prop) [DecidableRel rel] (sizeLimit : Nat)
    (c : List INodeFile) : Option (List INodeFile × List (List INodeFile)) :=
  match List.insertionSort rel c with
  | [] => none
  | r0 :: rest => some (r0 :: rest, iterLoop key sizeLimit (r0 :: rest) (key r0) [])

/-- Lexicographic code-point comparison of character lists: the order
Python's `str` comparison uses for the hash-attribute sort keys. -/
def strLeList : List Char → List Char → Bool
  | [], _ => true
  | _ :: _, [] => false
  | a :: as, b :: bs => if a = b then strLeList as bs else decide (a.toNat < b.toNat)

/-- Python's `str` less-or-equal on strings. -/
def strLe (s t : String) : Bool := strLeList s.data t.data

/-- Sort order for `sort_by_attribute('size')` (`reverse=True`). -/
def sizeRel (a b : INodeFile) : Prop := b.size ≤ a.size

instance : DecidableRel sizeRel := fun a b => Nat.decLe b.size a.size

/-- Sort order for `sort_by_attribute('prefix_md5sum')`. -/
def pmd5Rel (fs : FS) (a b : INodeFile) : Prop :=
  strLe (INodeFile.pVal fs a) (INodeFile.pVal fs b) = true

instance (fs : FS) : DecidableRel (pmd5Rel fs) := fun a b =>
  inferInstanceAs (Decidable (_ = true))

/-- Sort order for `sort_by_attribute('md5sum')`. -/
def md5Rel (fs : FS) (a b : INodeFile) : Prop :=
  strLe (INodeFile.mVal fs a) (INodeFile.mVal fs b) = true

instance (fs : FS) : DecidableRel (md5Rel fs) := fun a b =>
  inferInstanceAs (Decidable (_ = true))

/-- Sort order for `sort_by_attribute('sha1sum')`. -/
def sha1Rel (fs : FS) (a b : INodeFile) : Prop :=
  strLe (INodeFile.sVal fs a) (INodeFile.sVal fs b) = true

instance (fs : FS) : DecidableRel (sha1Rel fs) := fun a b =>
  inferInstanceAs (Decidable (_ = true))

/-- `iter_list('size', size_limit)`. -/
def iter_list_size (sizeLimit : Nat) (c : List INodeFile) :
    Option (List INodeFile × List (List INodeFile)) :=
  iterListBy (fun r => r.size) sizeRel sizeLimit c

/-- `iter_list('prefix_md5sum', size_limit)`.  The sort key is the value of
the `prefix_md5sum` property at the current filesystem; the access also
caches the digest, which does not change the value any later access
returns, so the key function is used value-wise. -/
def iter_list_pmd5 (fs : FS) (sizeLimit : Nat) (c : List INodeFile) :
    Option (List INodeFile × List (List INodeFile)) :=
  iterListBy (INodeFile.pVal fs) (pmd5Rel fs) sizeLimit c

/-- `iter_list('md5sum', size_limit)`. -/
def iter_list_md5 (fs : FS) (sizeLimit : Nat) (c : List INodeFile) :
    Option (List INodeFile × List (List INodeFile)) :=
  iterListBy (INodeFile.mVal fs) (md5Rel fs) sizeLimit c

/-- `iter_list('sha1sum', size_limit)`. -/
def iter_list_sha1 (fs : FS) (sizeLimit : Nat) (c : List INodeFile) :
    Option (List INodeFile × List (List INodeFile)) :=
  iterListBy (INodeFile.sVal fs) (sha1Rel fs) sizeLimit c

/-! ## `INodeFileList.merge` -/

/-- State threaded through the merge cascade: the filesystem, the in-place
updates to the base records of the equivalence groups processed so far
(inode, updated record), and the records collected into `merged_items`
(tombstones, in collection order; their inodes are pairwise distinct, so
`merged_items.add` appends). -/
abbrev MState := FS × List (Nat × INodeFile) × List INodeFile

/-- Processing of one final (`sha1sum`-level) group: `popitem()` removes
and returns the record at the last position (raising, hence `none`, on an
empty collection); every remaining record is merged into it in order; the
remaining, now tombstoned, records are added to `merged_items`. -/
def mergeGroupStep (acc : FS × INodeFile × List INodeFile) (item : INodeFile) :
    FS × INodeFile × List INodeFile :=
  let (fs, b, ms) := acc
  let (fs1, b1, item1) := INodeFile.mergeRec fs b item
  (fs1, b1, ms ++ [item1])

/-- Processing of one final group: pop the last record, fold the merge of
every remaining record into it, record the update and the tombstones. -/
def mergeGroup (st : MState) (g : List INodeFile) : Option MState :=
  match g.getLast? with
  | none => none
  | some base =>
      let out := g.dropLast.foldl mergeGroupStep (st.1, base, [])
      some (out.1, st.2.1 ++ [(base.inode, out.2.1)], st.2.2 ++ out.2.2)

/-- `for sha1sum_list in md5sum_list.iter_list('sha1sum'): ...` body. -/
def mergeSha1Groups (st : MState) : List (List INodeFile) → Option MState
  | [] => some st
  | g :: gs =>
      match mergeGroup st g with
      | none => none
      | some st1 => mergeSha1Groups st1 gs

/-- `for md5sum_list in prefix_md5sum_list.iter_list('md5sum'): ...` body. -/
def mergeMd5Groups (st : MState) : List (List INodeFile) → Option MState
  | [] => some st
  | g :: gs =>
      match iter_list_sha1 st.1 0 g with
      | none => none
      | some (_, sgs) =>
          match mergeSha1Groups st sgs with
          | none => none
          | some st1 => mergeMd5Groups st1 gs

/-- `for prefix_md5sum_list in size_list.iter_list('prefix_md5sum'): ...` body. -/
def mergePmd5Groups (st : MState) : List (List INodeFile) → Option MState
  | [] => some st
  | g :: gs =>
      match iter_list_md5 st.1 0 g with
      | none => none
      | some (_, mgs) =>
          match mergeMd5Groups st mgs with
          | none => none
          | some st1 => mergePmd5Groups st1 gs

/-- `for size_list in self.iter_list('size'): ...` body (the `status`
helper only prints and is omitted). -/
def mergeSizeGroups (st : MState) : List (List INodeFile) → Option MState
  | [] => some st
  | g :: gs =>
      match iter_list_pmd5 st.1 0 g with
      | none => none
      | some (_, pgs) =>
          match mergePmd5Groups st pgs with
          | none => none
          | some st1 => mergeSizeGroups st1 gs

namespace INodeFileList

/-- `INodeFileList.merge()`: run the size → prefix-md5 → md5 → sha1
cascade, merge every final group into its last record, then
`del self[merged_items]` (every merged inode is a key of `self`, so the
deletion is the removal of exactly those keys) and return `merged_items`.
The collection keeps the order `iter_list('size')` left behind; records
mutated as group bases are re-read through their inode key. -/
def merge (fs : FS) (c : List INodeFile) : Option (FS × List INodeFile × List INodeFile) :=
  match iter_list_size 0 c with
  | none => none
  | some (sortedSelf, sizeGroups) =>
      match mergeSizeGroups (fs, [], []) sizeGroups with
      | none => none
      | some (fs1, updates, merged) =>
          some (fs1,
            (sortedSelf.filter
                (fun r => !(merged.any (fun m => decide (m.inode = r.inode))))).map
              (fun r => ((updates.find? (fun u => decide (u.1 = r.inode))).map Prod.snd).getD r),
            merged)

end INodeFileList

/-! ## Auxiliary specification-side definitions -/

/-- Agreement of two optional digests in the sense of the specification:
a field not yet computed on either side is not a mismatch. -/
def optAgree : Option String → Option String → Bool
  | some x, some y => x == y
  | _, _ => true

/-- Modelled from the spec (for comparison with `INodeFile.eqCheck`):
"two live records are equal if their inodes are equal; otherwise they must
have identical size; then, only if previously computed, identical
prefix hash, full md5, full sha1.  Fields not yet computed are treated as
equal" -- and no hash is computed by the comparison itself. -/
def specEq (a b : INodeFile) : Bool :=
  decide (a.inode = b.inode)
    || (decide (a.size = b.size) && optAgree a.pmd5 b.pmd5
        && optAgree a.fmd5 b.fmd5 && optAgree a.fsha1 b.fsha1)

/-- The filesystem trace of `INodeFile.merge`: fold the per-path
rename/link/remove sequence over the paths, recording the final filesystem
and which paths had all three operations succeed.  (Companion to
`INodeFile.mergeStep`; used to state what `mergeRec` does.) -/
def mergeTrace : FS → String → List String → FS × List String
  | fs, _, [] => (fs, [])
  | fs, sf, p :: t =>
      match INodeFile.mergePathOps fs sf p with
      | (fs1, true) => ((mergeTrace fs1 sf t).1, p :: (mergeTrace fs1 sf t).2)
      | (fs1, false) => mergeTrace fs1 sf t

/-- Wellformedness of a cached digest for the persistence round trip:
absent, or a nonempty string free of the `'\0'` separator and of newlines
(every `hexdigest()` output satisfies this). -/
def optDigestOk : Option String → Prop
  | none => True
  | some d => d.data ≠ [] ∧ nullChar ∉ d.data ∧ nlChar ∉ d.data

instance : ∀ o, Decidable (optDigestOk o)
  | none => isTrue trivial
  | some _ => inferInstanceAs (Decidable (_ ∧ _))

/-- Wellformedness of a record for the persistence round trip: at least one
path and no duplicates (a live record of a collection), no path containing
the `'\0'` separator or a newline or carrying leading/trailing whitespace,
and wellformed cached digests. -/
def DumpSafe (r : INodeFile) : Prop :=
  r.files ≠ [] ∧ r.files.Nodup
    ∧ (∀ p ∈ r.files, nullChar ∉ p.data ∧ nlChar ∉ p.data
        ∧ pyWhitespace (p.data.headD 'x') = false
        ∧ pyWhitespace (p.data.getLastD 'x') = false)
    ∧ optDigestOk r.pmd5 ∧ optDigestOk r.fmd5 ∧ optDigestOk r.fsha1

instance (r : INodeFile) : Decidable (DumpSafe r) :=
  inferInstanceAs (Decidable (_ ∧ _))

/-- Agreement of two filesystems on everything the hash values depend on
(`rename`/`link`/`remove` never touch these). -/
def FSStaticEq (a b : FS) : Prop :=
  a.content = b.content ∧ a.md5fn = b.md5fn ∧ a.sha1fn = b.sha1fn

/-- Agreement of two records on every field except the path set (the only
field `Merge` changes on the surviving base record). -/
def eqExceptFiles (a b : INodeFile) : Prop :=
  a.inode = b.inode ∧ a.size = b.size ∧ a.pmd5 = b.pmd5 ∧ a.fmd5 = b.fmd5
    ∧ a.fsha1 = b.fsha1 ∧ a.merged_into = b.merged_into

/-- The tombstoned records a final equivalence group leaves behind: every
member except the one at the last position, pointed at the last member. -/
def tombstones (g : List INodeFile) : List INodeFile :=
  match g.getLast? with
  | none => []
  | some glast => g.dropLast.map (fun y => { y with merged_into := some glast.inode })

/-- The full cascade signature of a record: size, prefix-md5, full-md5 and
full-sha1 values (each the cached digest or the one its accessor would
compute). -/
def key4 (fs : FS) (r : INodeFile) : Nat × String × String × String :=
  (r.size, INodeFile.pVal fs r, INodeFile.mVal fs r, INodeFile.sVal fs r)

/-- The equivalence group of a signature inside a collection, in
collection order. -/
def classOf (fs : FS) (c : List INodeFile) (k : Nat × String × String × String) :
    List INodeFile :=
  c.filter (fun r => decide (key4 fs r = k))

/-- The first two components of the cascade signature. -/
def key2 (fs : FS) (r : INodeFile) : Nat × String := (r.size, INodeFile.pVal fs r)

/-- The first three components of the cascade signature. -/
def key3 (fs : FS) (r : INodeFile) : Nat × String × String :=
  (r.size, INodeFile.pVal fs r, INodeFile.mVal fs r)

/-- Invariant of a group at one cascade level, with `keyC` the signature
prefix the level has grouped by and `proj` its projection from the full
signature: all members share one prefix value `κ`, the group is (a
permutation of) the sub-collection of `c` with that prefix, and the group
contains, as a sublist in `c`'s order, every full-signature class
extending `κ`. -/
def chainInv {α : Type} [DecidableEq α] (keyC : INodeFile → α)
    (proj : Nat × String × String × String → α)
    (fs : FS) (c : List INodeFile) (g : List INodeFile) : Prop :=
  ∃ κ, (∀ x ∈ g, keyC x = κ)
    ∧ g.Perm (c.filter (fun r => decide (keyC r = κ)))
    ∧ ∀ k, proj k = κ → List.Sublist (classOf fs c k) g

/-- A signature whose group the cascade merges: at least two members and a
size above the floor 0. -/
def qualifies (fs : FS) (c : List INodeFile) (k : Nat × String × String × String) :
    Prop :=
  1 < (classOf fs c k).length ∧ 0 < k.1

instance (fs : FS) (c : List INodeFile) (k : Nat × String × String × String) :
    Decidable (qualifies fs c k) :=
  inferInstanceAs (Decidable (_ ∧ _))

/-- The records `merge()` collects into `merged_items`, expressed through
the keys `Ks` of the equivalence groups it processed: per group, every
member but the last, pointed at the last member. -/
def tombFlat (fs : FS) (c : List INodeFile)
    (Ks : List (Nat × String × String × String)) : List INodeFile :=
  (Ks.map (fun k => tombstones (classOf fs c k))).flatten

/-- The collection `merge()` leaves behind: the size-sorted collection with
every merged record removed (`del self[merged_items]` keys by inode) and
every group base re-read through its inode key (the in-place updates
`upds`). -/
def mergedColl (fs : FS) (c : List INodeFile) (upds : List (Nat × INodeFile))
    (Ks : List (Nat × String × String × String)) : List INodeFile :=
  ((List.insertionSort sizeRel c).filter
      (fun r => !((tombFlat fs c Ks).any (fun m => decide (m.inode = r.inode))))).map
    (fun r => ((upds.find? (fun u => decide (u.1 = r.inode))).map Prod.snd).getD r)

/-! ## Concrete fixtures

A small filesystem and a handful of records used by the closed witness and
counterexample theorems.  Inodes 1 and 2 hold identical two-byte content,
inode 4 holds different content of the same length, inodes 11 and 12 hold
empty files, inode 21 holds content only permission-denied paths point at. -/

/-- Concrete digest functions: any injective rendering of the byte list
serves as a stand-in for a hex digest. -/
def testFS : FS where
  ino := fun p =>
    if p = "/a" then some 1
    else if p = "/b" then some 2
    else if p = "/c" then some 3
    else if p = "/d" then some 4
    else if p = "/z1" then some 11
    else if p = "/z2" then some 12
    else if p = "/p" then some 21
    else if p = "/q" then some 21
    else if p = "/dev0" then some 90
    else none
  content := fun i =>
    if i = 1 ∨ i = 2 then [7, 7]
    else if i = 4 then [8, 8]
    else if i = 11 ∨ i = 12 then []
    else if i = 21 then [7, 7]
    else [9]
  mode := fun p => if p = "/dev0" then FMode.other else FMode.regular
  perm := fun p => decide (p ≠ "/q" ∧ p ≠ "/q.file_merge-bu")
  walk := fun _ => []
  md5fn := fun b => toString b
  sha1fn := fun b => "S" ++ toString b

/-- Record for `/a` (inode 1, content `[7, 7]`), no hashes computed. -/
def recA : INodeFile :=
  { inode := 1, size := 2, pmd5 := none, fmd5 := none, fsha1 := none,
    files := ["/a"], merged_into := none }

/-- `recA` with all three digests cached (their true values for content
`[7, 7]` under `testFS`): a record the merge cascade can process without
any file read. -/
def recAc : INodeFile :=
  { recA with
      pmd5 := some "[7, 7]"
      fmd5 := some "[7, 7]"
      fsha1 := some "S[7, 7]" }

/-- Record for `/b` (inode 2, content `[7, 7]`), no hashes computed. -/
def recB : INodeFile :=
  { inode := 2, size := 2, pmd5 := none, fmd5 := none, fsha1 := none,
    files := ["/b"], merged_into := none }

/-- Record for `/c` (inode 3, content `[9]`), no hashes computed. -/
def recC : INodeFile :=
  { inode := 3, size := 1, pmd5 := none, fmd5 := none, fsha1 := none,
    files := ["/c"], merged_into := none }

/-- Record for `/d` (inode 4, content `[8, 8]`, same size as `recA`). -/
def recD : INodeFile :=
  { inode := 4, size := 2, pmd5 := none, fmd5 := none, fsha1 := none,
    files := ["/d"], merged_into := none }

/-- Record for `/z1` (inode 11, empty content, size 0). -/
def recZ1 : INodeFile :=
  { inode := 11, size := 0, pmd5 := none, fmd5 := none, fsha1 := none,
    files := ["/z1"], merged_into := none }

/-- Record for `/z2` (inode 12, empty content, size 0). -/
def recZ2 : INodeFile :=
  { inode := 12, size := 0, pmd5 := none, fmd5 := none, fsha1 := none,
    files := ["/z2"], merged_into := none }

/-- Record for inode 21, reachable through `/p` (allowed) and `/q`
(permission denied), same content as inode 1. -/
def recPQ : INodeFile :=
  { inode := 21, size := 2, pmd5 := none, fmd5 := none, fsha1 := none,
    files := ["/p", "/q"], merged_into := none }

/-! ## Theorems -/

namespace INodeFile

theorem prefixMd5sum_eq (fs : FS) (r : INodeFile) :
    prefixMd5sum fs r = (pVal fs r, { r with pmd5 := some (pVal fs r) }) := by
  cases r with
  | mk inode size pmd5 fmd5 fsha1 files mi => cases pmd5 <;> simp [prefixMd5sum, pVal]

theorem md5sum_eq (fs : FS) (r : INodeFile) :
    md5sum fs r = (mVal fs r, { r with fmd5 := some (mVal fs r) }) := by
  cases r with
  | mk inode size pmd5 fmd5 fsha1 files mi => cases fmd5 <;> simp [md5sum, mVal]

theorem sha1sum_eq (fs : FS) (r : INodeFile) :
    sha1sum fs r = (sVal fs r, { r with fsha1 := some (sVal fs r) }) := by
  cases r with
  | mk inode size pmd5 fmd5 fsha1 files mi => cases fsha1 <;> simp [sha1sum, sVal]

@[simp] theorem pVal_mk (fs : FS) (i s : Nat) (p m h : Option String)
    (f : List String) (mi : Option Nat) :
    pVal fs ⟨i, s, p, m, h, f, mi⟩ = p.getD (hashDigest fs.md5fn true (fs.content i)) := rfl

@[simp] theorem mVal_mk (fs : FS) (i s : Nat) (p m h : Option String)
    (f : List String) (mi : Option Nat) :
    mVal fs ⟨i, s, p, m, h, f, mi⟩ = m.getD (hashDigest fs.md5fn false (fs.content i)) := rfl

@[simp] theorem sVal_mk (fs : FS) (i s : Nat) (p m h : Option String)
    (f : List String) (mi : Option Nat) :
    sVal fs ⟨i, s, p, m, h, f, mi⟩ = h.getD (hashDigest fs.sha1fn false (fs.content i)) := rfl

/-- Value of `__eq__`: inode equality, or size equality together with
agreement of all three digest values (cached-or-computed). -/
theorem eqCheck_fst_iff (fs : FS) (a b : INodeFile) :
    (eqCheck fs a b).1 = true ↔
      (a.inode = b.inode ∨
        (a.size = b.size ∧ pVal fs a = pVal fs b ∧ mVal fs a = mVal fs b
          ∧ sVal fs a = sVal fs b)) := by
  obtain ⟨ia, sa, pa, ma, ha, fa, mia⟩ := a
  obtain ⟨ib, sb, pb, mb, hb, fb, mib⟩ := b
  simp only [eqCheck, prefixMd5sum_eq, md5sum_eq, sha1sum_eq, pVal_mk, mVal_mk, sVal_mk]
  split_ifs <;> simp_all

end INodeFile

section Codec

theorem digitChar_toNat (d : Nat) (h : d < 10) : (digitChar d).toNat = 48 + d := by
  interval_cases d <;> decide

theorem digitChar_isDigit (d : Nat) (h : d < 10) : isDigitChar (digitChar d) = true := by
  interval_cases d <;> decide

theorem natToDecAux_digits (fuel : Nat) :
    ∀ n, ∀ ch ∈ natToDecAux fuel n, isDigitChar ch = true := by
  induction fuel with
  | zero => intro n ch h; simp [natToDecAux] at h
  | succ fuel ih =>
      intro n ch h
      match n with
      | 0 => simp [natToDecAux] at h
      | m + 1 =>
          rw [show natToDecAux (fuel + 1) (m + 1)
              = natToDecAux fuel ((m + 1) / 10) ++ [digitChar ((m + 1) % 10)] from rfl] at h
          rcases List.mem_append.mp h with h | h
          · exact ih _ ch h
          · rcases List.mem_singleton.mp h with rfl
            exact digitChar_isDigit _ (Nat.mod_lt _ (by norm_num))

theorem natToDecAux_foldl (fuel : Nat) :
    ∀ (n a : Nat), n ≤ fuel →
      (natToDecAux fuel n).foldl (fun m ch => 10 * m + (ch.toNat - 48)) a
        = a * 10 ^ (natToDecAux fuel n).length + n := by
  induction fuel with
  | zero =>
      intro n a h
      interval_cases n
      simp [natToDecAux]
  | succ fuel ih =>
      intro n a h
      match n with
      | 0 => simp [natToDecAux]
      | m + 1 =>
          rw [show natToDecAux (fuel + 1) (m + 1)
              = natToDecAux fuel ((m + 1) / 10) ++ [digitChar ((m + 1) % 10)] from rfl]
          have hd : (m + 1) / 10 ≤ fuel := by
            have := Nat.div_lt_self (Nat.succ_pos m) (by norm_num : 1 < 10)
            omega
          rw [List.foldl_append, ih ((m + 1) / 10) a hd]
          simp only [List.foldl_cons, List.foldl_nil]
          rw [digitChar_toNat _ (Nat.mod_lt _ (by norm_num))]
          rw [List.length_append, List.length_singleton]
          have hmod : 48 + (m + 1) % 10 - 48 = (m + 1) % 10 := by omega
          rw [hmod]
          have hdm : 10 * ((m + 1) / 10) + (m + 1) % 10 = m + 1 := Nat.div_add_mod _ _
          set L := (natToDecAux fuel ((m + 1) / 10)).length
          calc 10 * (a * 10 ^ L + (m + 1) / 10) + (m + 1) % 10
              = a * (10 ^ L * 10) + (10 * ((m + 1) / 10) + (m + 1) % 10) := by ring
            _ = a * 10 ^ (L + 1) + (m + 1) := by rw [hdm, pow_succ]

theorem natToDec_ne_nil (n : Nat) : natToDec n ≠ [] := by
  unfold natToDec
  split
  · simp
  · rename_i h
    match n, h with
    | m + 1, _ => simp [natToDecAux]

theorem natToDec_digits (n : Nat) : ∀ ch ∈ natToDec n, isDigitChar ch = true := by
  unfold natToDec
  split
  · intro ch h
    rcases List.mem_singleton.mp h with rfl
    decide
  · exact natToDecAux_digits n n

theorem parseNatDec_natToDec (n : Nat) : parseNatDec (natToDec n) = some n := by
  by_cases h0 : n = 0
  · subst h0; decide
  · unfold parseNatDec
    rw [if_pos ⟨natToDec_ne_nil n, List.all_eq_true.mpr (natToDec_digits n)⟩]
    unfold natToDec
    rw [if_neg h0]
    rw [natToDecAux_foldl n n 0 le_rfl]
    simp

theorem isDigit_facts (ch : Char) (h : isDigitChar ch = true) :
    ch ≠ nullChar ∧ ch ≠ nlChar ∧ pyWhitespace ch = false := by
  unfold isDigitChar at h
  rw [decide_eq_true_eq] at h
  refine ⟨fun he => ?_, fun he => ?_, ?_⟩
  · rw [he] at h
    exact absurd h (by decide)
  · rw [he] at h
    exact absurd h (by decide)
  · unfold pyWhitespace
    rw [decide_eq_false_iff_not]
    omega

theorem splitChar_ne_nil (sep : Char) : ∀ l, splitChar sep l ≠ [] := by
  intro l
  induction l with
  | nil => simp [splitChar]
  | cons c cs ih =>
      unfold splitChar
      split
      · simp
      · split
        · simp
        · simp

theorem splitChar_sepfree (sep : Char) :
    ∀ l : List Char, sep ∉ l → splitChar sep l = [l] := by
  intro l
  induction l with
  | nil => intro _; rfl
  | cons c cs ih =>
      intro h
      have hcne : ¬ c = sep := by
        intro hc
        subst hc
        exact h (List.mem_cons_self _ _)
      rw [splitChar, if_neg hcne, ih (fun hm => h (List.mem_cons_of_mem _ hm))]

theorem splitChar_append (sep : Char) :
    ∀ (a rest : List Char), sep ∉ a →
      splitChar sep (a ++ sep :: rest) = a :: splitChar sep rest := by
  intro a
  induction a with
  | nil =>
      intro rest _
      show splitChar sep (sep :: rest) = [] :: splitChar sep rest
      rw [splitChar, if_pos rfl]
  | cons c a' ih =>
      intro rest h
      have hcne : ¬ c = sep := by
        intro hc
        subst hc
        exact h (List.mem_cons_self _ _)
      show splitChar sep (c :: (a' ++ sep :: rest)) = (c :: a') :: splitChar sep rest
      rw [splitChar, if_neg hcne, ih rest (fun hm => h (List.mem_cons_of_mem _ hm))]

theorem splitChar_join (sep : Char) :
    ∀ ls : List (List Char), ls ≠ [] → (∀ l ∈ ls, sep ∉ l) →
      splitChar sep (joinChar sep ls) = ls := by
  intro ls
  induction ls with
  | nil => intro h; exact absurd rfl h
  | cons l ls' ih =>
      intro _ hfree
      cases ls' with
      | nil =>
          show splitChar sep l = [l]
          exact splitChar_sepfree sep l (hfree l (List.mem_cons_self _ _))
      | cons l2 ls'' =>
          show splitChar sep (l ++ sep :: joinChar sep (l2 :: ls'')) = _
          rw [splitChar_append sep l _ (hfree l (List.mem_cons_self _ _))]
          rw [ih (by simp) (fun m hm => hfree m (List.mem_cons_of_mem _ hm))]

theorem joinChar_not_mem (sep c : Char) (hc : c ≠ sep) :
    ∀ ls : List (List Char), (∀ l ∈ ls, c ∉ l) → c ∉ joinChar sep ls := by
  intro ls
  induction ls with
  | nil => intro _; simp [joinChar]
  | cons l ls' ih =>
      intro hfree
      cases ls' with
      | nil => exact hfree l (List.mem_cons_self _ _)
      | cons l2 ls'' =>
          show c ∉ l ++ sep :: joinChar sep (l2 :: ls'')
          intro hm
          rcases List.mem_append.mp hm with hm | hm
          · exact hfree l (List.mem_cons_self _ _) hm
          · rcases List.mem_cons.mp hm with hm | hm
            · exact hc hm
            · exact ih (fun m h => hfree m (List.mem_cons_of_mem _ h)) hm

theorem joinChar_concat (sep : Char) :
    ∀ (ls : List (List Char)) (l : List Char), ls ≠ [] →
      joinChar sep (ls ++ [l]) = joinChar sep ls ++ sep :: l := by
  intro ls
  induction ls with
  | nil => intro l h; exact absurd rfl h
  | cons a ls' ih =>
      intro l _
      cases ls' with
      | nil => rfl
      | cons b ls'' =>
          show joinChar sep (a :: ((b :: ls'') ++ [l])) = _
          rw [show joinChar sep (a :: ((b :: ls'') ++ [l]))
              = a ++ sep :: joinChar sep ((b :: ls'') ++ [l]) from rfl]
          rw [ih l (by simp)]
          rw [show joinChar sep (a :: b :: ls'') = a ++ sep :: joinChar sep (b :: ls'') from rfl]
          rw [List.append_assoc, List.cons_append]

theorem getLastD_append_cons (a : List Char) (b : Char) (l : List Char) (d : Char) :
    (a ++ b :: l).getLastD d = l.getLastD b := by
  induction a generalizing d with
  | nil => rw [List.nil_append, List.getLastD_cons]
  | cons x a' ih =>
      rw [List.cons_append, List.getLastD_cons]
      exact ih x

theorem headD_append_left (a b : List Char) (d : Char) (h : a ≠ []) :
    (a ++ b).headD d = a.headD d := by
  cases a with
  | nil => exact absurd rfl h
  | cons c a' => rfl

theorem getLastD_irrel (l : List Char) (h : l ≠ []) (d1 d2 : Char) :
    l.getLastD d1 = l.getLastD d2 := by
  cases hE : l.reverse with
  | nil => exact absurd (by simpa using congrArg List.reverse hE) h
  | cons c cs =>
      have : l = (c :: cs).reverse := by rw [← hE, List.reverse_reverse]
      subst this
      simp [List.getLastD_eq_getLast?]

theorem pyStrip_terminated (l : List Char) (hne : l ≠ [])
    (hh : pyWhitespace (l.headD 'x') = false)
    (hl : pyWhitespace (l.getLastD 'x') = false) :
    pyStrip (l ++ [nlChar]) = l := by
  match l, hne with
  | c :: cs, _ =>
    unfold pyStrip
    have hh' : pyWhitespace c = false := hh
    have h1 : List.dropWhile pyWhitespace ((c :: cs) ++ [nlChar]) = (c :: cs) ++ [nlChar] := by
      rw [List.cons_append, List.dropWhile_cons, hh']
      simp
    rw [h1]
    rw [show ((c :: cs) ++ [nlChar]).reverse = nlChar :: (c :: cs).reverse by
      rw [List.reverse_append]; rfl]
    rw [List.dropWhile_cons, show pyWhitespace nlChar = true from by decide]
    simp only [if_true]
    cases hrevE : (c :: cs).reverse with
    | nil =>
        exfalso
        have hlen := congrArg List.length hrevE
        simp at hlen
    | cons d ds =>
        have hd : pyWhitespace d = false := by
          have hdl : (c :: cs).getLastD 'x' = d := by
            have h2 := List.head?_reverse (c :: cs)
            rw [hrevE] at h2
            rw [List.getLastD_eq_getLast?, ← h2]
            rfl
          rw [← hdl]
          exact hl
        rw [List.dropWhile_cons, hd]
        simp only [if_false, Bool.false_eq_true]
        rw [← hrevE, List.reverse_reverse]

/-- The field decomposition of a dumped line. -/
theorem splitChar_dumpLine (r : INodeFile) (hsafe : DumpSafe r) :
    splitChar nullChar (INodeFile.dumpLine r)
      = natToDec r.inode :: natToDec r.size :: (r.pmd5.getD "").data
          :: (r.fmd5.getD "").data :: (r.fsha1.getD "").data
          :: r.files.map String.data := by
  obtain ⟨hfne, _, hpaths, hp1, hp2, hp3⟩ := hsafe
  have hdig : ∀ n : Nat, nullChar ∉ natToDec n := by
    intro n hm
    exact (isDigit_facts _ (natToDec_digits n _ hm)).1 rfl
  have hfield : ∀ o : Option String, optDigestOk o → nullChar ∉ (o.getD "").data := by
    intro o ho hm
    cases o with
    | none => simp at hm
    | some d => exact ho.2.1 hm
  unfold INodeFile.dumpLine
  rw [splitChar_append _ _ _ (hdig r.inode), splitChar_append _ _ _ (hdig r.size),
    splitChar_append _ _ _ (hfield _ hp1), splitChar_append _ _ _ (hfield _ hp2),
    splitChar_append _ _ _ (hfield _ hp3)]
  rw [splitChar_join _ _ (by simpa using hfne)
    (fun l hl => by
      rcases List.mem_map.mp hl with ⟨p, hp, rfl⟩
      exact (hpaths p hp).1)]

/-- Parsing a dumped line restores the record, with `merged_into`
re-initialised to `None`. -/
theorem parseLine_dumpLine (r : INodeFile) (hsafe : DumpSafe r) :
    INodeFile.parseLine (INodeFile.dumpLine r) = some { r with merged_into := none } := by
  obtain ⟨hfne, hnodup, hpaths, hp1, hp2, hp3⟩ := hsafe
  unfold INodeFile.parseLine
  rw [splitChar_dumpLine r ⟨hfne, hnodup, hpaths, hp1, hp2, hp3⟩]
  simp only [parseNatDec_natToDec]
  have hfield : ∀ o : Option String, optDigestOk o →
      (if (o.getD "").data = [] then none else some (String.mk (o.getD "").data)) = o := by
    intro o ho
    cases o with
    | none => rfl
    | some d =>
        simp only [Option.getD_some]
        rw [if_neg ho.1]
  rw [hfield _ hp1, hfield _ hp2, hfield _ hp3]
  have hfiles : ((r.files.map String.data).map String.mk).dedup = r.files := by
    rw [List.map_map, show (String.mk ∘ String.data) = id from funext (fun s => rfl),
      List.map_id]
    exact List.dedup_eq_self.mpr hnodup
  rw [hfiles]

/-- A dumped line contains the separator, no newline, and carries a
non-whitespace first and last character. -/
theorem dumpLine_facts (r : INodeFile) (hsafe : DumpSafe r) :
    INodeFile.dumpLine r ≠ []
      ∧ nullChar ∈ INodeFile.dumpLine r
      ∧ nlChar ∉ INodeFile.dumpLine r
      ∧ pyWhitespace ((INodeFile.dumpLine r).headD 'x') = false
      ∧ pyWhitespace ((INodeFile.dumpLine r).getLastD 'x') = false := by
  obtain ⟨hfne, _, hpaths, hp1, hp2, hp3⟩ := hsafe
  have hdigits := natToDec_digits r.inode
  have hine := natToDec_ne_nil r.inode
  refine ⟨?_, ?_, ?_, ?_, ?_⟩
  · unfold INodeFile.dumpLine
    intro h
    exact hine (List.append_eq_nil.mp h).1
  · unfold INodeFile.dumpLine
    exact List.mem_append.mpr (Or.inr (List.mem_cons_self _ _))
  · unfold INodeFile.dumpLine
    have hfield : ∀ o : Option String, optDigestOk o → nlChar ∉ (o.getD "").data := by
      intro o ho hm
      cases o with
      | none => simp at hm
      | some d => exact ho.2.2 hm
    have hdig : ∀ n : Nat, nlChar ∉ natToDec n := by
      intro n hm
      exact (isDigit_facts _ (natToDec_digits n _ hm)).2.1 rfl
    intro hm
    have hnl : nlChar ≠ nullChar := by decide
    rcases List.mem_append.mp hm with hm | hm
    · exact hdig _ hm
    rcases List.mem_cons.mp hm with hm | hm
    · exact hnl hm
    rcases List.mem_append.mp hm with hm | hm
    · exact hdig _ hm
    rcases List.mem_cons.mp hm with hm | hm
    · exact hnl hm
    rcases List.mem_append.mp hm with hm | hm
    · exact hfield _ hp1 hm
    rcases List.mem_cons.mp hm with hm | hm
    · exact hnl hm
    rcases List.mem_append.mp hm with hm | hm
    · exact hfield _ hp2 hm
    rcases List.mem_cons.mp hm with hm | hm
    · exact hnl hm
    rcases List.mem_append.mp hm with hm | hm
    · exact hfield _ hp3 hm
    rcases List.mem_cons.mp hm with hm | hm
    · exact hnl hm
    exact joinChar_not_mem _ _ hnl _
      (fun l hl => by
        rcases List.mem_map.mp hl with ⟨p, hp, rfl⟩
        exact (hpaths p hp).2.1) hm
  · unfold INodeFile.dumpLine
    rw [headD_append_left _ _ _ hine]
    cases hE : natToDec r.inode with
    | nil => exact absurd hE hine
    | cons c cs =>
        have : isDigitChar c = true := hdigits c (hE ▸ List.mem_cons_self _ _)
        exact (isDigit_facts c this).2.2
  · rcases List.eq_nil_or_concat r.files with h | ⟨fs0, pl, hE⟩
    · exact absurd h hfne
    · have hplmem : pl ∈ r.files := by
        rw [hE, List.concat_eq_append]
        exact List.mem_append.mpr (Or.inr (List.mem_singleton.mpr rfl))
      have hdecomp : ∃ B : List Char,
          INodeFile.dumpLine r = B ++ nullChar :: pl.data := by
        unfold INodeFile.dumpLine
        rw [hE, List.concat_eq_append, List.map_append]
        cases fs0 with
        | nil =>
            refine ⟨natToDec r.inode ++ nullChar :: (natToDec r.size
              ++ nullChar :: ((r.pmd5.getD "").data
              ++ nullChar :: ((r.fmd5.getD "").data
              ++ nullChar :: (r.fsha1.getD "").data))), ?_⟩
            simp [joinChar]
        | cons q qs =>
            rw [show (List.map String.data (q :: qs) ++ List.map String.data [pl])
                = List.map String.data (q :: qs) ++ [pl.data] from rfl]
            rw [joinChar_concat _ _ _ (by simp)]
            refine ⟨natToDec r.inode ++ nullChar :: (natToDec r.size
              ++ nullChar :: ((r.pmd5.getD "").data
              ++ nullChar :: ((r.fmd5.getD "").data
              ++ nullChar :: ((r.fsha1.getD "").data
              ++ nullChar :: joinChar nullChar ((q :: qs).map String.data))))), ?_⟩
            simp
      rcases hdecomp with ⟨B, hB⟩
      rw [hB, getLastD_append_cons]
      by_cases hpl : pl.data = []
      · rw [hpl]
        decide
      · have hlast := (hpaths pl hplmem).2.2.2
        rw [getLastD_irrel pl.data hpl nullChar 'x']
        exact hlast

theorem splitChar_flatten (ls : List (List Char)) (hfree : ∀ l ∈ ls, nlChar ∉ l) :
    splitChar nlChar ((ls.map (fun l => l ++ [nlChar])).flatten) = ls ++ [[]] := by
  induction ls with
  | nil => rfl
  | cons l ls' ih =>
      rw [List.map_cons, List.flatten_cons, List.append_assoc,
        show [nlChar] ++ (ls'.map (fun l => l ++ [nlChar])).flatten
          = nlChar :: (ls'.map (fun l => l ++ [nlChar])).flatten from rfl]
      rw [splitChar_append _ _ _ (hfree l (List.mem_cons_self _ _))]
      rw [ih (fun m h => hfree m (List.mem_cons_of_mem _ h))]
      rfl

theorem readlines_dumpFile (c : List INodeFile) (hsafe : ∀ r ∈ c, DumpSafe r) :
    INodeFileList.readlines (INodeFileList.dumpFile c)
      = c.map (fun r => INodeFile.dumpLine r ++ [nlChar]) := by
  simp only [INodeFileList.readlines, INodeFileList.dumpFile]
  rw [show List.map (fun r : INodeFile => INodeFile.dumpLine r ++ [nlChar]) c
      = (c.map INodeFile.dumpLine).map (fun l => l ++ [nlChar]) by
    rw [List.map_map]
    rfl]
  rw [splitChar_flatten _ (fun l hl => by
    rcases List.mem_map.mp hl with ⟨r, hr, rfl⟩
    exact (dumpLine_facts r (hsafe r hr)).2.2.1)]
  rw [List.dropLast_concat, List.getLast?_concat]
  simp

theorem setItem_append (acc : List INodeFile) (item : INodeFile)
    (h : item.inode ∉ acc.map INodeFile.inode) : setItem acc item = acc ++ [item] := by
  have hc : (acc.any (fun r => decide (r.inode = item.inode))) = false := by
    rw [List.any_eq_false]
    intro x hx
    simp only [decide_eq_true_eq]
    intro he
    exact h (List.mem_map.mpr ⟨x, hx, he⟩)
  unfold setItem
  rw [hc]
  simp

theorem load_lines (fs : FS) :
    ∀ (c acc : List INodeFile),
      (∀ r ∈ c, DumpSafe r) →
      (∀ r ∈ c, r.inode ∉ acc.map INodeFile.inode) →
      (c.map INodeFile.inode).Nodup →
      List.foldlM (fun acc line =>
          (INodeFile.init fs (String.mk (pyStrip line))).map (fun item => setItem acc item))
        acc (c.map (fun r => INodeFile.dumpLine r ++ [nlChar]))
      = some (acc ++ c.map (fun r => { r with merged_into := none })) := by
  intro c
  induction c with
  | nil =>
      intro acc _ _ _
      simp
  | cons r c' ih =>
      intro acc hsafe hfresh hnodup
      have hsr := hsafe r (List.mem_cons_self _ _)
      obtain ⟨hne, hnull, _, hhead, hlast⟩ := dumpLine_facts r hsr
      rw [List.map_cons, List.foldlM_cons]
      have hline : INodeFile.init fs (String.mk (pyStrip (INodeFile.dumpLine r ++ [nlChar])))
          = some { r with merged_into := none } := by
        rw [pyStrip_terminated _ hne hhead hlast]
        unfold INodeFile.init
        rw [if_pos hnull]
        exact parseLine_dumpLine r hsr
      rw [hline]
      have hset : setItem acc { r with merged_into := none }
          = acc ++ [{ r with merged_into := none }] :=
        setItem_append acc _ (hfresh r (List.mem_cons_self _ _))
      rw [Option.map_some']
      rw [show ((some (setItem acc { r with merged_into := none }) : Option (List INodeFile)) >>= fun b =>
          List.foldlM (fun acc line =>
            (INodeFile.init fs (String.mk (pyStrip line))).map (fun item => setItem acc item)) b
            (c'.map (fun r => INodeFile.dumpLine r ++ [nlChar])))
          = List.foldlM (fun acc line =>
            (INodeFile.init fs (String.mk (pyStrip line))).map (fun item => setItem acc item))
            (setItem acc { r with merged_into := none })
            (c'.map (fun r => INodeFile.dumpLine r ++ [nlChar])) from rfl]
      rw [hset]
      have hfresh' : ∀ x ∈ c',
          x.inode ∉ (acc ++ [{ r with merged_into := none }]).map INodeFile.inode := by
        intro x hx
        rw [List.map_append]
        intro hm
        rcases List.mem_append.mp hm with hm | hm
        · exact hfresh x (List.mem_cons_of_mem _ hx) hm
        · have he' : x.inode = r.inode := List.mem_singleton.mp hm
          have hxin : x.inode ∈ c'.map INodeFile.inode := List.mem_map.mpr ⟨x, hx, rfl⟩
          rw [List.map_cons] at hnodup
          rw [he'] at hxin
          exact (List.nodup_cons.mp hnodup).1 hxin
      have hih := ih (acc ++ [{ r with merged_into := none }])
        (fun x hx => hsafe x (List.mem_cons_of_mem _ hx)) hfresh'
        (by rw [List.map_cons] at hnodup; exact (List.nodup_cons.mp hnodup).2)
      rw [hih]
      simp

end Codec

section IterListSpec

theorem yieldCondition_nil (sl : Nat) : yieldCondition sl [] = false := rfl

theorem yieldCondition_cons (sl : Nat) (h : INodeFile) (t : List INodeFile) :
    yieldCondition sl (h :: t) = true ↔ (t ≠ [] ∧ sl < h.size) := by
  rw [yieldCondition]
  constructor
  · intro hc
    split_ifs at hc
    rename_i h1 h2
    constructor
    · intro he
      subst he
      exact h1 (by simp)
    · omega
  · rintro ⟨h1, h2⟩
    rw [if_neg, if_neg]
    · omega
    · simp
      intro he
      exact absurd he h1

/-- Every run `iter_list` yields passed the yield condition. -/
theorem iterLoop_yield {κ : Type} [DecidableEq κ] (key : INodeFile → κ) (sl : Nat) :
    ∀ (l : List INodeFile) (v : κ) (acc : List INodeFile),
      ∀ g ∈ iterLoop key sl l v acc, yieldCondition sl g = true := by
  intro l
  induction l with
  | nil =>
      intro v acc g hg
      rw [iterLoop] at hg
      split at hg
      · rename_i hyc
        rcases List.mem_singleton.mp hg with rfl
        exact hyc
      · exact absurd hg (List.not_mem_nil g)
  | cons r rest ih =>
      intro v acc g hg
      rw [iterLoop] at hg
      split at hg
      · exact ih v (acc ++ [r]) g hg
      · rcases List.mem_append.mp hg with hg | hg
        · split at hg
          · rename_i hyc
            rcases List.mem_singleton.mp hg with rfl
            exact hyc
          · exact absurd hg (List.not_mem_nil g)
        · exact ih (key r) [r] g hg

/-- On a sorted remainder, every yielded run is exactly the filter of the
whole (sorted) list by one key value, and every key class passing the
yield condition is yielded. -/
theorem iterLoop_classes {κ : Type} [DecidableEq κ] (key : INodeFile → κ)
    (rel : INodeFile → INodeFile → Prop) [DecidableRel rel] (sl : Nat)
    (hcomp : ∀ a b c, rel a b → rel b c → key a = key c → key b = key a) :
    ∀ (l : List INodeFile) (v : κ) (acc : List INodeFile),
      acc ≠ [] → (∀ x ∈ acc, key x = v) →
      List.Sorted rel (acc ++ l) →
      (∀ g ∈ iterLoop key sl l v acc,
          ∃ k, g = (acc ++ l).filter (fun x => decide (key x = k)))
        ∧ (∀ k, yieldCondition sl ((acc ++ l).filter (fun x => decide (key x = k))) = true →
            (acc ++ l).filter (fun x => decide (key x = k)) ∈ iterLoop key sl l v acc) := by
  intro l
  induction l with
  | nil =>
      intro v acc hne hkeys _
      have hfa : acc.filter (fun x => decide (key x = v)) = acc :=
        List.filter_eq_self.mpr (fun a ha => decide_eq_true (hkeys a ha))
      constructor
      · intro g hg
        rw [iterLoop] at hg
        split at hg
        · rcases List.mem_singleton.mp hg with rfl
          exact ⟨v, by rw [List.append_nil, hfa]⟩
        · exact absurd hg (List.not_mem_nil g)
      · intro k hyc
        rw [List.append_nil] at hyc ⊢
        by_cases hkv : k = v
        · subst hkv
          rw [hfa] at hyc ⊢
          rw [iterLoop, if_pos hyc]
          exact List.mem_singleton.mpr rfl
        · have hnil : acc.filter (fun x => decide (key x = k)) = [] := by
            rw [List.filter_eq_nil_iff]
            intro a ha
            simp only [decide_eq_true_eq]
            rw [hkeys a ha]
            exact fun h => hkv h.symm
          rw [hnil] at hyc
          exact absurd hyc (by rw [yieldCondition_nil]; simp)
  | cons r rest ih =>
      intro v acc hne hkeys hsorted
      by_cases hkr : key r = v
      · have hkeys' : ∀ x ∈ acc ++ [r], key x = v := by
          intro x hx
          rcases List.mem_append.mp hx with hx | hx
          · exact hkeys x hx
          · rcases List.mem_singleton.mp hx with rfl
            exact hkr
        have hsorted' : List.Sorted rel ((acc ++ [r]) ++ rest) := by
          rw [List.append_assoc]
          exact hsorted
        obtain ⟨ha, hb⟩ := ih v (acc ++ [r]) (by simp) hkeys' hsorted'
        have hassoc : (acc ++ [r]) ++ rest = acc ++ r :: rest := by
          rw [List.append_assoc]
          rfl
        constructor
        · intro g hg
          rw [iterLoop, if_pos hkr] at hg
          obtain ⟨k, hk⟩ := ha g hg
          rw [hassoc] at hk
          exact ⟨k, hk⟩
        · intro k hyc
          rw [iterLoop, if_pos hkr]
          have := hb k (by rw [hassoc]; exact hyc)
          rw [hassoc] at this
          exact this
      · have hpw : List.Pairwise rel (acc ++ r :: rest) := hsorted
        obtain ⟨hpw_acc, hpw_tail, hcross⟩ := List.pairwise_append.mp hpw
        obtain ⟨hr_rest, hpw_rest⟩ := List.pairwise_cons.mp hpw_tail
        obtain ⟨a0, ha0⟩ : ∃ a, a ∈ acc := List.exists_mem_of_ne_nil acc hne
        have hnov : ∀ x ∈ r :: rest, key x ≠ v := by
          intro x hx hxv
          rcases List.mem_cons.mp hx with rfl | hx'
          · exact hkr hxv
          · have h1 : rel a0 r := hcross a0 ha0 r (List.mem_cons_self _ _)
            have h2 : rel r x := hr_rest x hx'
            have h3 : key r = key a0 := hcomp a0 r x h1 h2 (by rw [hkeys a0 ha0, hxv])
            exact hkr (by rw [h3, hkeys a0 ha0])
        have hfilv : (acc ++ r :: rest).filter (fun x => decide (key x = v)) = acc := by
          rw [List.filter_append,
            List.filter_eq_self.mpr (fun a ha => decide_eq_true (hkeys a ha)),
            List.filter_eq_nil_iff.mpr (fun x hx => by
              simp only [decide_eq_true_eq]
              exact hnov x hx)]
          simp
        have hfilk : ∀ k, k ≠ v → (acc ++ r :: rest).filter (fun x => decide (key x = k))
            = (r :: rest).filter (fun x => decide (key x = k)) := by
          intro k hk
          rw [List.filter_append,
            List.filter_eq_nil_iff.mpr (fun a ha => by
              simp only [decide_eq_true_eq]
              rw [hkeys a ha]
              exact fun h => hk h.symm)]
          simp
        have hsorted'' : List.Sorted rel ([r] ++ rest) := hpw_tail
        obtain ⟨ha, hb⟩ := ih (key r) [r] (by simp)
          (by
            intro x hx
            rcases List.mem_singleton.mp hx with rfl
            rfl) hsorted''
        constructor
        · intro g hg
          rw [iterLoop, if_neg hkr] at hg
          rcases List.mem_append.mp hg with hg | hg
          · split at hg
            · rcases List.mem_singleton.mp hg with rfl
              exact ⟨v, hfilv.symm⟩
            · exact absurd hg (List.not_mem_nil _)
          · obtain ⟨k, hk⟩ := ha g hg
            have hyc := iterLoop_yield key sl rest (key r) [r] g hg
            have hgne : g ≠ [] := by
              intro h
              rw [h, yieldCondition_nil] at hyc
              exact absurd hyc (by simp)
            obtain ⟨x, hxg⟩ := List.exists_mem_of_ne_nil g hgne
            have hxmem : x ∈ [r] ++ rest ∧ key x = k := by
              rw [hk] at hxg
              have := List.mem_filter.mp hxg
              exact ⟨this.1, of_decide_eq_true this.2⟩
            have hkne : k ≠ v := fun he => hnov x hxmem.1 (by rw [hxmem.2, he])
            refine ⟨k, ?_⟩
            rw [hfilk k hkne]
            exact hk
        · intro k hyc
          rw [iterLoop, if_neg hkr]
          by_cases hkv : k = v
          · subst hkv
            rw [hfilv] at hyc ⊢
            exact List.mem_append.mpr (Or.inl (by
              rw [if_pos hyc]
              exact List.mem_singleton.mpr rfl))
          · rw [hfilk k hkv] at hyc ⊢
            exact List.mem_append.mpr (Or.inr (hb k hyc))

/-- Characterisation of `iter_list` on a nonempty collection: it succeeds,
re-sorts the collection, and yields exactly the key classes passing the
yield condition. -/
theorem iterListBy_spec {κ : Type} [DecidableEq κ] (key : INodeFile → κ)
    (rel : INodeFile → INodeFile → Prop) [DecidableRel rel] (sl : Nat)
    (htot : ∀ a b, rel a b ∨ rel b a)
    (htrans : ∀ a b c, rel a b → rel b c → rel a c)
    (hcomp : ∀ a b c, rel a b → rel b c → key a = key c → key b = key a)
    (c : List INodeFile) (hne : c ≠ []) :
    ∃ groups,
      iterListBy key rel sl c = some (List.insertionSort rel c, groups)
      ∧ (∀ g ∈ groups, yieldCondition sl g = true)
      ∧ (∀ g ∈ groups,
          ∃ k, g = (List.insertionSort rel c).filter (fun x => decide (key x = k)))
      ∧ ∀ k, yieldCondition sl
            ((List.insertionSort rel c).filter (fun x => decide (key x = k))) = true →
          (List.insertionSort rel c).filter (fun x => decide (key x = k)) ∈ groups := by
  have hperm := List.perm_insertionSort rel c
  have hsorted : List.Sorted rel (List.insertionSort rel c) :=
    @List.sorted_insertionSort _ rel _ ⟨htot⟩ ⟨fun _ _ _ => htrans _ _ _⟩ c
  rcases hE : List.insertionSort rel c with _ | ⟨r0, rest⟩
  · rw [hE] at hperm
    exact absurd hperm.symm.eq_nil hne
  · rw [hE] at hperm hsorted
    have hiter : iterListBy key rel sl c
        = some (r0 :: rest, iterLoop key sl rest (key r0) [r0]) := by
      unfold iterListBy
      rw [hE]
      simp [iterLoop]
    have hsorted' : List.Sorted rel ([r0] ++ rest) := hsorted
    obtain ⟨ha, hb⟩ := iterLoop_classes key rel sl hcomp rest (key r0) [r0]
      (by simp)
      (by
        intro x hx
        rcases List.mem_singleton.mp hx with rfl
        rfl)
      hsorted'
    refine ⟨iterLoop key sl rest (key r0) [r0], hiter, ?_, ?_, ?_⟩
    · intro g hg
      exact iterLoop_yield key sl rest (key r0) [r0] g hg
    · intro g hg
      obtain ⟨k, hk⟩ := ha g hg
      exact ⟨k, hk⟩
    · intro k hyc
      exact hb k hyc

end IterListSpec

/-- C4.  Round trip of the persistence codec: loading the dump of a
collection yields, inode for inode and in order, records with the same
size, the same cached hash fields (computed stays computed with the same
digest, uncomputed stays uncomputed -- `dump` reads only the cache
attributes and computes nothing), and the same path set; only
`merged_into` is re-initialised.  Hypotheses (`DumpSafe`): every record is
live with duplicate-free paths, paths contain no null byte, no newline and
no leading or trailing whitespace, digests are wellformed, and the
collection maps distinct inodes (it is a dictionary keyed by inode). -/
theorem c4_dump_load_roundtrip (fs : FS) (c : List INodeFile)
    (hsafe : ∀ r ∈ c, DumpSafe r)
    (hnodup : (c.map INodeFile.inode).Nodup) :
    INodeFileList.load fs [] (INodeFileList.dumpFile c)
      = some (c.map (fun r => { r with merged_into := none })) := by
  unfold INodeFileList.load
  rw [readlines_dumpFile c hsafe]
  rw [load_lines fs c [] hsafe (by simp) hnodup]
  rw [List.nil_append]

/-- C4 witness at a two-record collection, one with a cached digest and a
two-path record, one with no cached hashes. -/
theorem c4_dump_load_roundtrip_witness :
    (∀ r ∈ [{ recPQ with fmd5 := some "d41d8cd98f00b204e9800998ecf8427e" }, recC],
        DumpSafe r)
      ∧ (([{ recPQ with fmd5 := some "d41d8cd98f00b204e9800998ecf8427e" }, recC].map
            INodeFile.inode).Nodup)
      ∧ INodeFileList.load testFS []
          (INodeFileList.dumpFile
            [{ recPQ with fmd5 := some "d41d8cd98f00b204e9800998ecf8427e" }, recC])
        = some ([{ recPQ with fmd5 := some "d41d8cd98f00b204e9800998ecf8427e" }, recC].map
            (fun r => { r with merged_into := none })) :=
  ⟨by decide, by decide,
   c4_dump_load_roundtrip testFS
     [{ recPQ with fmd5 := some "d41d8cd98f00b204e9800998ecf8427e" }, recC]
     (by decide) (by decide)⟩

section StrOrder

theorem charEq_of_toNat {a b : Char} (h : a.toNat = b.toNat) : a = b :=
  Char.ext (UInt32.ext h)

theorem strLeList_refl : ∀ l : List Char, strLeList l l = true := by
  intro l
  induction l with
  | nil => rfl
  | cons c cs ih => rw [strLeList, if_pos rfl]; exact ih

theorem strLeList_total : ∀ a b : List Char, strLeList a b = true ∨ strLeList b a = true := by
  intro a
  induction a with
  | nil => intro b; exact Or.inl rfl
  | cons x xs ih =>
      intro b
      cases b with
      | nil => exact Or.inr rfl
      | cons y ys =>
          by_cases hxy : x = y
          · subst hxy
            rw [strLeList, if_pos rfl, strLeList, if_pos rfl]
            exact ih ys
          · have hyx : ¬ y = x := fun h => hxy h.symm
            have hne : x.toNat ≠ y.toNat := fun h => hxy (charEq_of_toNat h)
            rw [strLeList, if_neg hxy, strLeList, if_neg hyx]
            rcases Nat.lt_or_ge x.toNat y.toNat with h | h
            · exact Or.inl (decide_eq_true h)
            · exact Or.inr (decide_eq_true (lt_of_le_of_ne h (fun he => hne he.symm)))

theorem strLeList_trans :
    ∀ a b c : List Char, strLeList a b = true → strLeList b c = true →
      strLeList a c = true := by
  intro a
  induction a with
  | nil => intro b c _ _; rfl
  | cons x xs ih =>
      intro b c hab hbc
      cases b with
      | nil => exact absurd hab (by rw [strLeList]; simp)
      | cons y ys =>
          cases c with
          | nil => exact absurd hbc (by rw [strLeList]; simp)
          | cons z zs =>
              rw [strLeList] at hab hbc ⊢
              by_cases hxy : x = y
              · subst hxy
                rw [if_pos rfl] at hab
                by_cases hyz : x = z
                · subst hyz
                  rw [if_pos rfl] at hbc ⊢
                  exact ih ys zs hab hbc
                · rw [if_neg hyz] at hbc ⊢
                  exact hbc
              · rw [if_neg hxy] at hab
                have hlt1 : x.toNat < y.toNat := of_decide_eq_true hab
                by_cases hyz : y = z
                · subst hyz
                  rw [if_neg hxy]
                  exact decide_eq_true hlt1
                · rw [if_neg hyz] at hbc
                  have hlt2 : y.toNat < z.toNat := of_decide_eq_true hbc
                  have hxz : ¬ x = z := by
                    intro he
                    subst he
                    exact absurd (Nat.lt_trans hlt1 hlt2) (lt_irrefl _)
                  rw [if_neg hxz]
                  exact decide_eq_true (Nat.lt_trans hlt1 hlt2)

theorem strLeList_antisymm :
    ∀ a b : List Char, strLeList a b = true → strLeList b a = true → a = b := by
  intro a
  induction a with
  | nil =>
      intro b _ hba
      cases b with
      | nil => rfl
      | cons y ys => exact absurd hba (by rw [strLeList]; simp)
  | cons x xs ih =>
      intro b hab hba
      cases b with
      | nil => exact absurd hab (by rw [strLeList]; simp)
      | cons y ys =>
          rw [strLeList] at hab hba
          by_cases hxy : x = y
          · subst hxy
            rw [if_pos rfl] at hab hba
            rw [ih ys hab hba]
          · have hyx : ¬ y = x := fun h => hxy h.symm
            rw [if_neg hxy] at hab
            rw [if_neg hyx] at hba
            exact absurd (Nat.lt_trans (of_decide_eq_true hab) (of_decide_eq_true hba))
              (lt_irrefl _)

theorem strLe_refl (s : String) : strLe s s = true := strLeList_refl s.data

theorem strLe_total (s t : String) : strLe s t = true ∨ strLe t s = true :=
  strLeList_total s.data t.data

theorem strLe_trans {s t u : String} (h1 : strLe s t = true) (h2 : strLe t u = true) :
    strLe s u = true :=
  strLeList_trans s.data t.data u.data h1 h2

theorem strLe_antisymm {s t : String} (h1 : strLe s t = true) (h2 : strLe t s = true) :
    s = t :=
  congrArg String.mk (strLeList_antisymm s.data t.data h1 h2)

end StrOrder

/-- C2.  Counterexample to the claimed `__eq__` semantics: `recA` and
`recD` have equal sizes, different content, and no computed hashes.  The
spec-side equality treats the absent digests as agreeing and calls the
records equal, and claims no digest is computed; the code computes the
prefix digests inside `__eq__` (they end up cached on both outputs) and
returns `False`. -/
theorem c2_eq_counterexample :
    specEq recA recD = true
      ∧ (INodeFile.eqCheck testFS recA recD).1 = false
      ∧ recA.pmd5 = none ∧ recD.pmd5 = none
      ∧ ((INodeFile.eqCheck testFS recA recD).2.1.pmd5).isSome = true
      ∧ ((INodeFile.eqCheck testFS recA recD).2.2.pmd5).isSome = true := by
  decide

/-- C2 (amended).  Equality of two records holds iff their inodes are
equal, or their sizes are equal and the three digest values agree, where a
digest value is the cached field if present and is otherwise computed from
the file content by the comparison itself (and cached on the record, the
comparison short-circuiting at the first disagreeing level). -/
theorem c2_eq_amended (fs : FS) (a b : INodeFile) :
    (INodeFile.eqCheck fs a b).1 = true ↔
      (a.inode = b.inode ∨
        (a.size = b.size ∧ INodeFile.pVal fs a = INodeFile.pVal fs b
          ∧ INodeFile.mVal fs a = INodeFile.mVal fs b
          ∧ INodeFile.sVal fs a = INodeFile.sVal fs b)) :=
  INodeFile.eqCheck_fst_iff fs a b

/-- C7.  Counterexample: `addfile` given another record does not stat the
target's inode; it uses `__eq__`.  `recA` and `recB` have distinct inodes
but identical size and content, so `addfile` reports `True` and takes over
the other record's paths, where the claim requires `False` and no
mutation. -/
theorem c7_addfile_counterexample :
    recA.inode ≠ recB.inode
      ∧ (INodeFile.addfileRecord testFS recA recB).1 = true
      ∧ (INodeFile.addfileRecord testFS recA recB).2.1.files = ["/a", "/b"] := by
  decide

/-- C7 (amended).  `addfile` with a path string stats the path freshly and
adds it exactly when the stat's inode matches `self.inode`, reporting the
outcome and leaving the record unchanged on a mismatch; `addfile` with
another record instead decides by `__eq__` (inode equality, or size and
digest agreement with digests computed on demand) and on success takes
over all of the other record's paths. -/
theorem c7_addfile_amended (fs : FS) (r other : INodeFile) (path : String) (i : Nat)
    (h : fs.ino path = some i) :
    INodeFile.addfilePath fs r path
        = some (decide (i = r.inode),
            if i = r.inode then { r with files := INodeFile.insertPath r.files path } else r)
      ∧ INodeFile.addfileRecord fs r other
          = ((INodeFile.eqCheck fs r other).1,
             if (INodeFile.eqCheck fs r other).1
             then { (INodeFile.eqCheck fs r other).2.1 with
                    files := INodeFile.unionPaths (INodeFile.eqCheck fs r other).2.1.files
                               (INodeFile.eqCheck fs r other).2.2.files }
             else (INodeFile.eqCheck fs r other).2.1,
             (INodeFile.eqCheck fs r other).2.2) := by
  constructor
  · simp only [INodeFile.addfilePath, h]
    by_cases hi : i = r.inode <;> simp [hi]
  · simp only [INodeFile.addfileRecord]
    cases (INodeFile.eqCheck fs r other).1 <;> simp

/-- C7 (amended) witness at `fs = testFS`, `r = recA`, `path = "/b"`. -/
theorem c7_addfile_amended_witness :
    testFS.ino "/b" = some 2
      ∧ (INodeFile.addfilePath testFS recA "/b"
            = some (decide (2 = recA.inode),
                if 2 = recA.inode
                then { recA with files := INodeFile.insertPath recA.files "/b" } else recA)
          ∧ INodeFile.addfileRecord testFS recA recB
              = ((INodeFile.eqCheck testFS recA recB).1,
                 if (INodeFile.eqCheck testFS recA recB).1
                 then { (INodeFile.eqCheck testFS recA recB).2.1 with
                        files := INodeFile.unionPaths
                                   (INodeFile.eqCheck testFS recA recB).2.1.files
                                   (INodeFile.eqCheck testFS recA recB).2.2.files }
                 else (INodeFile.eqCheck testFS recA recB).2.1,
                 (INodeFile.eqCheck testFS recA recB).2.2)) :=
  ⟨by decide, c7_addfile_amended testFS recA recB "/b" 2 (by decide)⟩

section MergePaths

/-- Static filesystem components: everything except the path-to-inode
map, which is all `rename`/`link`/`remove` modify. -/
theorem FS.rename_static (fs : FS) (src dst : String) (fs' : FS)
    (h : fs.rename src dst = some fs') :
    fs'.content = fs.content ∧ fs'.perm = fs.perm ∧ fs'.md5fn = fs.md5fn
      ∧ fs'.sha1fn = fs.sha1fn ∧ fs'.mode = fs.mode ∧ fs'.walk = fs.walk
      ∧ ∀ q, q ≠ src → q ≠ dst → fs'.ino q = fs.ino q := by
  unfold FS.rename at h
  split at h
  · exact absurd h (by simp)
  · split_ifs at h
    cases h
    refine ⟨rfl, rfl, rfl, rfl, rfl, rfl, fun q hs hd => ?_⟩
    simp [if_neg hd, if_neg hs]

theorem FS.link_static (fs : FS) (src dst : String) (fs' : FS)
    (h : fs.link src dst = some fs') :
    fs'.content = fs.content ∧ fs'.perm = fs.perm ∧ fs'.md5fn = fs.md5fn
      ∧ fs'.sha1fn = fs.sha1fn ∧ fs'.mode = fs.mode ∧ fs'.walk = fs.walk
      ∧ (∀ q, q ≠ dst → fs'.ino q = fs.ino q)
      ∧ fs'.ino dst = fs.ino src := by
  unfold FS.link at h
  split at h
  · exact absurd h (by simp)
  · rename_i i hsrc
    split at h
    · exact absurd h (by simp)
    · split_ifs at h
      cases h
      exact ⟨rfl, rfl, rfl, rfl, rfl, rfl, fun q hd => by simp [if_neg hd],
        by simp [hsrc]⟩

theorem FS.remove_static (fs : FS) (p : String) (fs' : FS)
    (h : fs.remove p = some fs') :
    fs'.content = fs.content ∧ fs'.perm = fs.perm ∧ fs'.md5fn = fs.md5fn
      ∧ fs'.sha1fn = fs.sha1fn ∧ fs'.mode = fs.mode ∧ fs'.walk = fs.walk
      ∧ ∀ q, q ≠ p → fs'.ino q = fs.ino q := by
  unfold FS.remove at h
  split at h
  · exact absurd h (by simp)
  · split_ifs at h
    cases h
    exact ⟨rfl, rfl, rfl, rfl, rfl, rfl, fun q hq => by simp [if_neg hq]⟩

/-- A path is never equal to its backup name. -/
theorem backup_ne (p : String) : p ++ ".file_merge-bu" ≠ p := by
  intro h
  have h2 := congrArg String.length h
  rw [String.length_append, show String.length ".file_merge-bu" = 14 from rfl] at h2
  omega


/-- The rename/link/remove sequence for one path only modifies the
path-to-inode map, and only at the path and its backup name. -/
theorem mergePathOps_static (fs : FS) (sf p : String) :
    (INodeFile.mergePathOps fs sf p).1.content = fs.content
      ∧ (INodeFile.mergePathOps fs sf p).1.perm = fs.perm
      ∧ (INodeFile.mergePathOps fs sf p).1.md5fn = fs.md5fn
      ∧ (INodeFile.mergePathOps fs sf p).1.sha1fn = fs.sha1fn
      ∧ (INodeFile.mergePathOps fs sf p).1.mode = fs.mode
      ∧ (INodeFile.mergePathOps fs sf p).1.walk = fs.walk
      ∧ ∀ q, q ≠ p → q ≠ p ++ ".file_merge-bu" →
          (INodeFile.mergePathOps fs sf p).1.ino q = fs.ino q := by
  unfold INodeFile.mergePathOps
  rcases h1 : fs.rename p (p ++ ".file_merge-bu") with _ | fs1
  · simp [h1]
  obtain ⟨c1, p1, m1, s1, o1, w1, i1⟩ := FS.rename_static fs _ _ fs1 h1
  rcases h2 : fs1.link sf p with _ | fs2
  · simp only [h1, h2]
    exact ⟨c1, p1, m1, s1, o1, w1, fun q hq hb => by rw [i1 q hq hb]⟩
  obtain ⟨c2, p2, m2, s2, o2, w2, i2, _⟩ := FS.link_static fs1 _ _ fs2 h2
  rcases h3 : fs2.remove (p ++ ".file_merge-bu") with _ | fs3
  · simp only [h1, h2, h3]
    exact ⟨c2.trans c1, p2.trans p1, m2.trans m1, s2.trans s1, o2.trans o1, w2.trans w1,
      fun q hq hb => by rw [i2 q hq, i1 q hq hb]⟩
  obtain ⟨c3, p3, m3, s3, o3, w3, i3⟩ := FS.remove_static fs2 _ fs3 h3
  simp only [h1, h2, h3]
  exact ⟨(c3.trans c2).trans c1, (p3.trans p2).trans p1, (m3.trans m2).trans m1,
    (s3.trans s2).trans s1, (o3.trans o2).trans o1, (w3.trans w2).trans w1,
    fun q hq hb => by rw [i3 q hb, i2 q hq, i1 q hq hb]⟩


/-- After a successful rename/link/remove sequence the path's directory
entry is a hardlink to whatever inode the base file had (the base file
itself being untouched by the sequence). -/
theorem mergePathOps_success_ino (fs : FS) (sf p : String)
    (hs : (INodeFile.mergePathOps fs sf p).2 = true)
    (h1 : sf ≠ p) (h2 : sf ≠ p ++ ".file_merge-bu") :
    (INodeFile.mergePathOps fs sf p).1.ino p = fs.ino sf := by
  simp only [INodeFile.mergePathOps] at hs ⊢
  rcases hr : fs.rename p (p ++ ".file_merge-bu") with _ | fs1
  · simp only [hr] at hs
    exact absurd hs (by simp)
  · simp only [hr] at hs ⊢
    obtain ⟨_, _, _, _, _, _, i1⟩ := FS.rename_static fs _ _ fs1 hr
    rcases hl : fs1.link sf p with _ | fs2
    · simp only [hl] at hs
      exact absurd hs (by simp)
    · simp only [hl] at hs ⊢
      obtain ⟨_, _, _, _, _, _, i2, idst⟩ := FS.link_static fs1 _ _ fs2 hl
      rcases hm : fs2.remove (p ++ ".file_merge-bu") with _ | fs3
      · simp only [hm] at hs
        exact absurd hs (by simp)
      · simp only [hm] at hs ⊢
        obtain ⟨_, _, _, _, _, _, i3⟩ := FS.remove_static fs2 _ fs3 hm
        rw [i3 p (fun h => backup_ne p h.symm), idst, i1 sf h1 h2]

@[simp] theorem insertPath_ne_nil (l : List String) (p : String) :
    INodeFile.insertPath l p ≠ [] := by
  unfold INodeFile.insertPath
  split
  · rename_i h; exact fun hl => by simp [hl] at h
  · simp

theorem headD_insertPath (l : List String) (p d : String) (h : l ≠ []) :
    (INodeFile.insertPath l p).headD d = l.headD d := by
  unfold INodeFile.insertPath
  split
  · rfl
  · cases l with
    | nil => exact absurd rfl h
    | cons a t => rfl

theorem mem_insertPath (l : List String) (p q : String) :
    q ∈ INodeFile.insertPath l p ↔ q ∈ l ∨ q = p := by
  unfold INodeFile.insertPath
  split
  · rename_i hp
    constructor
    · exact fun h => Or.inl h
    · rintro (h | rfl)
      · exact h
      · exact hp
  · simp

theorem mem_foldl_insertPath (l : List String) :
    ∀ (init : List String) (q : String),
      q ∈ l.foldl INodeFile.insertPath init ↔ q ∈ init ∨ q ∈ l := by
  induction l with
  | nil => simp
  | cons p t ih =>
      intro init q
      rw [List.foldl_cons, ih, mem_insertPath]
      constructor
      · rintro ((h | rfl) | h)
        · exact Or.inl h
        · exact Or.inr (List.mem_cons_self _ _)
        · exact Or.inr (List.mem_cons_of_mem _ h)
      · rintro (h | h)
        · exact Or.inl (Or.inl h)
        · rcases List.mem_cons.mp h with rfl | h
          · exact Or.inl (Or.inr rfl)
          · exact Or.inr h

/-- The loop of `INodeFile.merge`, related to its trace: provided the
base record keeps a stable first path whose inode entry none of the
processed paths or backups clobber, the fold ends in the trace's
filesystem with exactly the successful paths added. -/
theorem mergeStep_foldl (paths : List String) :
    ∀ (fs : FS) (r : INodeFile),
      r.files ≠ [] →
      fs.ino r.file = some r.inode →
      (∀ p ∈ paths, p ≠ r.file ∧ p ++ ".file_merge-bu" ≠ r.file) →
      paths.foldl INodeFile.mergeStep (fs, r)
        = ((mergeTrace fs r.file paths).1,
           { r with files := (mergeTrace fs r.file paths).2.foldl INodeFile.insertPath r.files }) := by
  induction paths with
  | nil =>
      intro fs r _ _ _
      simp [mergeTrace]
  | cons p t ih =>
      intro fs r hne hino hsep
      obtain ⟨hp1, hp2⟩ := hsep p (List.mem_cons_self _ _)
      have hsep' : ∀ q ∈ t, q ≠ r.file ∧ q ++ ".file_merge-bu" ≠ r.file :=
        fun q hq => hsep q (List.mem_cons_of_mem _ hq)
      obtain ⟨hc, hpm, hmd, hsh, hmo, hwk, hq⟩ := mergePathOps_static fs r.file p
      have hino1 : (INodeFile.mergePathOps fs r.file p).1.ino r.file = some r.inode := by
        rw [hq r.file (fun h => hp1 h.symm) (fun h => hp2 h.symm)]; exact hino
      rw [List.foldl_cons]
      rcases hp : INodeFile.mergePathOps fs r.file p with ⟨fs1, b⟩
      rw [hp] at hino1
      have htr : mergeTrace fs r.file (p :: t)
          = if b then ((mergeTrace fs1 r.file t).1, p :: (mergeTrace fs1 r.file t).2)
            else mergeTrace fs1 r.file t := by
        conv_lhs => rw [mergeTrace]
        rw [hp]
        cases b <;> simp
      cases b
      · have hstep : INodeFile.mergeStep (fs, r) p = (fs1, r) := by
          simp only [INodeFile.mergeStep]
          rw [hp]
        rw [hstep, ih fs1 r hne hino1 hsep', htr]
        simp
      · have hsucc : (INodeFile.mergePathOps fs r.file p).2 = true := by rw [hp]
        have hinop : fs1.ino p = some r.inode := by
          have hsi := mergePathOps_success_ino fs r.file p hsucc
            (fun h => hp1 h.symm) (fun h => hp2 h.symm)
          rw [hp] at hsi
          rw [hsi, hino]
        have hstep : INodeFile.mergeStep (fs, r) p
            = (fs1, { r with files := INodeFile.insertPath r.files p }) := by
          simp only [INodeFile.mergeStep]
          rw [hp]
          show (match INodeFile.addfilePath fs1 r p with
            | none => (fs1, r)
            | some (_, slf1) => (fs1, slf1)) = _
          simp only [INodeFile.addfilePath]
          rw [hinop]
          simp
        set r1 : INodeFile := { r with files := INodeFile.insertPath r.files p } with hr1
        have hne1 : r1.files ≠ [] := insertPath_ne_nil _ _
        have hfile1 : r1.file = r.file := headD_insertPath r.files p "" hne
        have hino1' : fs1.ino r1.file = some r1.inode := by
          rw [hfile1]
          exact hino1
        have hsep1 : ∀ q ∈ t, q ≠ r1.file ∧ q ++ ".file_merge-bu" ≠ r1.file := by
          intro q hq
          rw [hfile1]
          exact hsep' q hq
        rw [hstep, ih fs1 r1 hne1 hino1' hsep1, htr]
        simp [hfile1, hr1]

end MergePaths

section MergeState

theorem FSStaticEq_refl (fs : FS) : FSStaticEq fs fs := ⟨rfl, rfl, rfl⟩

theorem FSStaticEq_trans {a b c : FS} (h1 : FSStaticEq a b) (h2 : FSStaticEq b c) :
    FSStaticEq a c :=
  ⟨h1.1.trans h2.1, h1.2.1.trans h2.2.1, h1.2.2.trans h2.2.2⟩

theorem eqExceptFiles_refl (r : INodeFile) : eqExceptFiles r r :=
  ⟨rfl, rfl, rfl, rfl, rfl, rfl⟩

theorem eqExceptFiles_trans {a b c : INodeFile} (h1 : eqExceptFiles a b)
    (h2 : eqExceptFiles b c) : eqExceptFiles a c :=
  ⟨h1.1.trans h2.1, h1.2.1.trans h2.2.1, h1.2.2.1.trans h2.2.2.1,
    h1.2.2.2.1.trans h2.2.2.2.1, h1.2.2.2.2.1.trans h2.2.2.2.2.1,
    h1.2.2.2.2.2.trans h2.2.2.2.2.2⟩

theorem pVal_congr {a b : FS} (h : FSStaticEq a b) (r : INodeFile) :
    INodeFile.pVal a r = INodeFile.pVal b r := by
  unfold INodeFile.pVal
  rw [h.1, h.2.1]

theorem mVal_congr {a b : FS} (h : FSStaticEq a b) (r : INodeFile) :
    INodeFile.mVal a r = INodeFile.mVal b r := by
  unfold INodeFile.mVal
  rw [h.1, h.2.1]

theorem sVal_congr {a b : FS} (h : FSStaticEq a b) (r : INodeFile) :
    INodeFile.sVal a r = INodeFile.sVal b r := by
  unfold INodeFile.sVal
  rw [h.1, h.2.2]

theorem key4_congr {a b : FS} (h : FSStaticEq a b) (r : INodeFile) :
    key4 a r = key4 b r := by
  unfold key4
  rw [pVal_congr h, mVal_congr h, sVal_congr h]

theorem eqExceptFiles_key4 (fs : FS) {a b : INodeFile} (h : eqExceptFiles a b) :
    key4 fs a = key4 fs b := by
  unfold key4 INodeFile.pVal INodeFile.mVal INodeFile.sVal
  rw [h.1, h.2.1, h.2.2.1, h.2.2.2.1, h.2.2.2.2.1]

theorem addfilePath_eqExceptFiles (fs : FS) (r : INodeFile) (p : String) :
    ∀ out, INodeFile.addfilePath fs r p = some out → eqExceptFiles out.2 r := by
  intro out h
  unfold INodeFile.addfilePath at h
  split at h
  · exact absurd h (by simp)
  · split_ifs at h
    · cases h
      exact ⟨rfl, rfl, rfl, rfl, rfl, rfl⟩
    · cases h
      exact eqExceptFiles_refl r

theorem mergeStep_parts (st : FS × INodeFile) (p : String) :
    FSStaticEq (INodeFile.mergeStep st p).1 st.1
      ∧ eqExceptFiles (INodeFile.mergeStep st p).2 st.2 := by
  rcases st with ⟨fs, slf⟩
  obtain ⟨hc, _, hm, hs, _, _, _⟩ := mergePathOps_static fs slf.file p
  have hstat : FSStaticEq (INodeFile.mergePathOps fs slf.file p).1 fs := ⟨hc, hm, hs⟩
  rcases hp : INodeFile.mergePathOps fs slf.file p with ⟨fs1, b⟩
  rw [hp] at hstat
  have hstat1 : FSStaticEq fs1 fs := hstat
  cases b
  · have hstep : INodeFile.mergeStep (fs, slf) p = (fs1, slf) := by
      simp only [INodeFile.mergeStep]
      rw [hp]
    rw [hstep]
    exact ⟨hstat1, eqExceptFiles_refl slf⟩
  · rcases ha : INodeFile.addfilePath fs1 slf p with _ | ⟨bb, slf1⟩
    · have hstep : INodeFile.mergeStep (fs, slf) p = (fs1, slf) := by
        simp only [INodeFile.mergeStep]
        rw [hp]
        show (match INodeFile.addfilePath fs1 slf p with
          | none => (fs1, slf)
          | some (_, slf2) => (fs1, slf2)) = _
        rw [ha]
      rw [hstep]
      exact ⟨hstat1, eqExceptFiles_refl slf⟩
    · have hstep : INodeFile.mergeStep (fs, slf) p = (fs1, slf1) := by
        simp only [INodeFile.mergeStep]
        rw [hp]
        show (match INodeFile.addfilePath fs1 slf p with
          | none => (fs1, slf)
          | some (_, slf2) => (fs1, slf2)) = _
        rw [ha]
      rw [hstep]
      exact ⟨hstat1, addfilePath_eqExceptFiles fs1 slf p (bb, slf1) ha⟩

theorem mergeFold_parts (paths : List String) :
    ∀ (st : FS × INodeFile),
      FSStaticEq (paths.foldl INodeFile.mergeStep st).1 st.1
        ∧ eqExceptFiles (paths.foldl INodeFile.mergeStep st).2 st.2 := by
  induction paths with
  | nil => intro st; exact ⟨FSStaticEq_refl _, eqExceptFiles_refl _⟩
  | cons p t ih =>
      intro st
      rw [List.foldl_cons]
      obtain ⟨h1, h2⟩ := ih (INodeFile.mergeStep st p)
      obtain ⟨h3, h4⟩ := mergeStep_parts st p
      exact ⟨FSStaticEq_trans h1 h3, eqExceptFiles_trans h2 h4⟩

theorem mergeRec_parts (fs : FS) (b item : INodeFile) :
    FSStaticEq (INodeFile.mergeRec fs b item).1 fs
      ∧ eqExceptFiles (INodeFile.mergeRec fs b item).2.1 b
      ∧ (INodeFile.mergeRec fs b item).2.2 = { item with merged_into := some b.inode } := by
  obtain ⟨h1, h2⟩ := mergeFold_parts item.files (fs, b)
  unfold INodeFile.mergeRec
  rcases hf : item.files.foldl INodeFile.mergeStep (fs, b) with ⟨fs1, slf1⟩
  rw [hf] at h1 h2
  exact ⟨h1, h2, rfl⟩

theorem mergeGroup_spec (st : MState) (g : List INodeFile) (glast : INodeFile)
    (hg : g.getLast? = some glast) :
    ∃ fs' base',
      mergeGroup st g
          = some (fs', st.2.1 ++ [(glast.inode, base')], st.2.2 ++ tombstones g)
        ∧ FSStaticEq fs' st.1 ∧ eqExceptFiles base' glast := by
  have hfold : ∀ (items : List INodeFile) (fs : FS) (b : INodeFile) (acc : List INodeFile),
      eqExceptFiles b glast →
      ∃ fs' b', items.foldl mergeGroupStep (fs, b, acc)
        = (fs', b', acc ++ items.map (fun y => { y with merged_into := some glast.inode }))
        ∧ FSStaticEq fs' fs ∧ eqExceptFiles b' glast := by
    intro items
    induction items with
    | nil =>
        intro fs b acc hb
        exact ⟨fs, b, by simp, FSStaticEq_refl fs, hb⟩
    | cons item t ih =>
        intro fs b acc hb
        obtain ⟨hs1, hs2, hs3⟩ := mergeRec_parts fs b item
        rcases hr : INodeFile.mergeRec fs b item with ⟨fs1, b1, item1⟩
        rw [hr] at hs1 hs2 hs3
        have hstep : mergeGroupStep (fs, b, acc) item = (fs1, b1, acc ++ [item1]) := by
          simp only [mergeGroupStep]
          rw [hr]
        obtain ⟨fs', b', hfoldE, hstat, hb'⟩ := ih fs1 b1 (acc ++ [item1]) (eqExceptFiles_trans hs2 hb)
        refine ⟨fs', b', ?_, FSStaticEq_trans hstat hs1, hb'⟩
        rw [List.foldl_cons, hstep, hfoldE]
        have hs3n : item1 = { item with merged_into := some b.inode } := hs3
        have hitem : item1 = { item with merged_into := some glast.inode } := by
          rw [hs3n, hb.1]
        rw [hitem]
        simp
  obtain ⟨hd, hE⟩ : ∃ hd, g = hd ++ [glast] := by
    rcases List.eq_nil_or_concat g with h | ⟨hd, x, hx⟩
    · rw [h] at hg
      exact absurd hg (by simp)
    · rw [hx, List.concat_eq_append] at hg ⊢
      rw [List.getLast?_concat] at hg
      cases hg
      exact ⟨hd, rfl⟩
  have hdrop : g.dropLast = hd := by rw [hE, List.dropLast_concat]
  have htomb : tombstones g
      = hd.map (fun y => { y with merged_into := some glast.inode }) := by
    unfold tombstones
    rw [hg, hdrop]
  obtain ⟨fs', b', hfoldE, hstat, hb'⟩ := hfold hd st.1 glast [] (eqExceptFiles_refl glast)
  refine ⟨fs', b', ?_, hstat, hb'⟩
  simp only [mergeGroup, hg, hdrop]
  rw [hfoldE, htomb]
  simp

end MergeState

section MergeCascade

/-! The cascade `for size_list in self.iter_list('size'): for
prefix_md5sum_list in size_list.iter_list('prefix_md5sum'): ...` is
verified level by level.  `chainInv` is the invariant of a group between
two levels; `chainInv_step` is one `iter_list` pass; the
`merge*Groups_spec` lemmas characterise the loop bodies; `merge_master`
assembles them into a characterisation of `INodeFileList.merge`. -/

theorem orderedInsert_congr_rel {α : Type} (r s : α → α → Prop) [DecidableRel r]
    [DecidableRel s] (h : ∀ a b, r a b ↔ s a b) (a : α) :
    ∀ l, List.orderedInsert r a l = List.orderedInsert s a l := by
  intro l
  induction l with
  | nil => rfl
  | cons b t ih =>
      simp only [List.orderedInsert]
      by_cases hr : r a b
      · rw [if_pos hr, if_pos ((h a b).mp hr)]
      · rw [if_neg hr, if_neg (fun h2 => hr ((h a b).mpr h2)), ih]

theorem insertionSort_congr_rel {α : Type} (r s : α → α → Prop) [DecidableRel r]
    [DecidableRel s] (h : ∀ a b, r a b ↔ s a b) :
    ∀ l, List.insertionSort r l = List.insertionSort s l := by
  intro l
  induction l with
  | nil => rfl
  | cons b t ih =>
      simp only [List.insertionSort]
      rw [ih, orderedInsert_congr_rel r s h]

theorem iterListBy_congr {κ : Type} [DecidableEq κ] (keyA keyB : INodeFile → κ)
    (r s : INodeFile → INodeFile → Prop) [DecidableRel r] [DecidableRel s]
    (hkey : ∀ x, keyA x = keyB x) (hrel : ∀ a b, r a b ↔ s a b) (sl : Nat)
    (c : List INodeFile) :
    iterListBy keyA r sl c = iterListBy keyB s sl c := by
  have hk : keyA = keyB := funext hkey
  subst hk
  unfold iterListBy
  rw [insertionSort_congr_rel r s hrel]

theorem iter_list_pmd5_congr {a b : FS} (h : FSStaticEq a b) (sl : Nat)
    (c : List INodeFile) : iter_list_pmd5 a sl c = iter_list_pmd5 b sl c := by
  unfold iter_list_pmd5
  exact iterListBy_congr _ _ _ _ (pVal_congr h)
    (fun x y => by unfold pmd5Rel; rw [pVal_congr h x, pVal_congr h y]) sl c

theorem iter_list_md5_congr {a b : FS} (h : FSStaticEq a b) (sl : Nat)
    (c : List INodeFile) : iter_list_md5 a sl c = iter_list_md5 b sl c := by
  unfold iter_list_md5
  exact iterListBy_congr _ _ _ _ (mVal_congr h)
    (fun x y => by unfold md5Rel; rw [mVal_congr h x, mVal_congr h y]) sl c

theorem iter_list_sha1_congr {a b : FS} (h : FSStaticEq a b) (sl : Nat)
    (c : List INodeFile) : iter_list_sha1 a sl c = iter_list_sha1 b sl c := by
  unfold iter_list_sha1
  exact iterListBy_congr _ _ _ _ (sVal_congr h)
    (fun x y => by unfold sha1Rel; rw [sVal_congr h x, sVal_congr h y]) sl c

theorem mem_classOf_key4 {fs : FS} {c : List INodeFile}
    {k : Nat × String × String × String} {x : INodeFile}
    (h : x ∈ classOf fs c k) : key4 fs x = k := by
  unfold classOf at h
  simpa using List.of_mem_filter h

theorem mem_classOf_mem {fs : FS} {c : List INodeFile}
    {k : Nat × String × String × String} {x : INodeFile}
    (h : x ∈ classOf fs c k) : x ∈ c :=
  List.mem_of_mem_filter h

theorem classOf_sublist (fs : FS) (c : List INodeFile)
    (k : Nat × String × String × String) : List.Sublist (classOf fs c k) c :=
  List.filter_sublist c

theorem classOf_ne_nil {fs : FS} {c : List INodeFile}
    {k : Nat × String × String × String} (h : qualifies fs c k) :
    classOf fs c k ≠ [] := by
  intro h0
  have h1 := h.1
  rw [h0] at h1
  simp at h1

theorem key4_fst (fs : FS) (r : INodeFile) : (key4 fs r).1 = r.size := rfl

theorem length_le_one_of_nodup_const {α : Type} (l : List α) (a : α)
    (hn : l.Nodup) (h : ∀ x ∈ l, x = a) : l.length ≤ 1 := by
  match l with
  | [] => simp
  | [x] => simp
  | x :: y :: t =>
      exfalso
      have hx : x = a := h x (List.mem_cons_self _ _)
      have hy : y = a := h y (List.mem_cons_of_mem _ (List.mem_cons_self _ _))
      rw [List.nodup_cons] at hn
      apply hn.1
      rw [hx, hy]
      exact List.mem_cons_self _ _

/-- One cascade level: re-sorting a `chainInv` group by the next attribute
and cutting it into equal-value runs (what `iter_list` does, with floor 0)
yields runs satisfying `chainInv` for the extended prefix, and the run
holding any qualifying class of the group is yielded. -/
theorem chainInv_step (fs0 : FS) (c : List INodeFile)
    {α β : Type} [DecidableEq α] [DecidableEq β]
    (keyC : INodeFile → α) (proj : Nat × String × String × String → α)
    (keyN : INodeFile → β) (projN : Nat × String × String × String → β)
    (rel : INodeFile → INodeFile → Prop) [DecidableRel rel]
    (hproj : ∀ r, proj (key4 fs0 r) = keyC r)
    (hprojN : ∀ r, projN (key4 fs0 r) = keyN r)
    (hrefl : ∀ a b, keyN a = keyN b → rel a b)
    (htot : ∀ a b, rel a b ∨ rel b a)
    (htrans : ∀ a b c2, rel a b → rel b c2 → rel a c2)
    (hanti : ∀ a b c2, rel a b → rel b c2 → keyN a = keyN c2 → keyN b = keyN a)
    (hsz : ∀ x y, keyC x = keyC y → keyN x = keyN y → x.size = y.size)
    (g : List INodeFile) (hgne : g ≠ [])
    (hinv : chainInv keyC proj fs0 c g) :
    ∃ gs, iterListBy keyN rel 0 g = some (List.insertionSort rel g, gs)
      ∧ (∀ g2 ∈ gs, g2 ≠ [] ∧ yieldCondition 0 g2 = true
          ∧ chainInv (fun x => (keyC x, keyN x)) (fun k => (proj k, projN k)) fs0 c g2)
      ∧ ∀ k, qualifies fs0 c k → List.Sublist (classOf fs0 c k) g →
          ∃ g2 ∈ gs, List.Sublist (classOf fs0 c k) g2 := by
  obtain ⟨κ, hkeys, hperm, hsub⟩ := hinv
  obtain ⟨gs, heq, hyield, hsound, hcompl⟩ :=
    iterListBy_spec keyN rel 0 htot htrans hanti g hgne
  have hsortperm := List.perm_insertionSort rel g
  have hstable : ∀ k, proj k = κ →
      List.Sublist (classOf fs0 c k) (List.insertionSort rel g) := by
    intro k hk
    refine List.sublist_insertionSort ?_ (hsub k hk)
    refine List.pairwise_of_forall_mem_list ?_
    intro a ha b hb
    apply hrefl
    rw [← hprojN a, ← hprojN b, mem_classOf_key4 ha, mem_classOf_key4 hb]
  have hclassfix : ∀ k, (classOf fs0 c k).filter
      (fun x => decide (keyN x = projN k)) = classOf fs0 c k := by
    intro k
    refine List.filter_eq_self.mpr ?_
    intro x hx
    apply decide_eq_true
    rw [← hprojN x, mem_classOf_key4 hx]
  refine ⟨gs, heq, ?_, ?_⟩
  · intro g2 hg2
    have hyc := hyield g2 hg2
    obtain ⟨v, hv⟩ := hsound g2 hg2
    have hg2ne : g2 ≠ [] := by
      intro h0
      rw [h0, yieldCondition_nil] at hyc
      exact Bool.false_ne_true hyc
    refine ⟨hg2ne, hyc, (κ, v), ?_, ?_, ?_⟩
    · intro x hx
      show (keyC x, keyN x) = (κ, v)
      rw [hv] at hx
      have hx2 : keyN x = v := by simpa using List.of_mem_filter hx
      have hx3 : x ∈ g := hsortperm.mem_iff.mp (List.mem_of_mem_filter hx)
      rw [hkeys x hx3, hx2]
    · rw [hv]
      have h1 : ((List.insertionSort rel g).filter
            (fun x => decide (keyN x = v))).Perm
          (g.filter (fun x => decide (keyN x = v))) := hsortperm.filter _
      have h2 : (g.filter (fun x => decide (keyN x = v))).Perm
          ((c.filter (fun r => decide (keyC r = κ))).filter
            (fun x => decide (keyN x = v))) := hperm.filter _
      have h3 : (c.filter (fun r => decide (keyC r = κ))).filter
            (fun x => decide (keyN x = v))
          = c.filter (fun r => decide ((keyC r, keyN r) = (κ, v))) := by
        rw [List.filter_filter]
        refine List.filter_congr ?_
        intro x _
        by_cases h4 : keyC x = κ <;> by_cases h5 : keyN x = v <;>
          simp [h4, h5, Prod.ext_iff]
      exact h1.trans (h3 ▸ h2)
    · intro k hk
      have hk1 : proj k = κ := congrArg Prod.fst hk
      have hk2 : projN k = v := congrArg Prod.snd hk
      have hc2 := hstable k hk1
      have h6 : (classOf fs0 c k).filter (fun x => decide (keyN x = v))
          = classOf fs0 c k := by
        rw [← hk2]
        exact hclassfix k
      rw [hv, ← h6]
      exact hc2.filter _
  · intro k hq hksub
    have hne2 : classOf fs0 c k ≠ [] := classOf_ne_nil hq
    obtain ⟨x0, hx0⟩ := List.exists_mem_of_ne_nil _ hne2
    have hk4 : key4 fs0 x0 = k := mem_classOf_key4 hx0
    have hk1 : proj k = κ := by
      rw [← hk4, hproj x0]
      exact hkeys x0 (hksub.subset hx0)
    have hc2 := hstable k hk1
    have hrun : List.Sublist (classOf fs0 c k)
        ((List.insertionSort rel g).filter
          (fun x => decide (keyN x = projN k))) := by
      have h7 := hc2.filter (fun x => decide (keyN x = projN k))
      rw [hclassfix k] at h7
      exact h7
    have hlen : 2 ≤ ((List.insertionSort rel g).filter
        (fun x => decide (keyN x = projN k))).length := by
      have h8 := hrun.length_le
      have h9 := hq.1
      omega
    have hyc : yieldCondition 0 ((List.insertionSort rel g).filter
        (fun x => decide (keyN x = projN k))) = true := by
      rcases hE : (List.insertionSort rel g).filter
          (fun x => decide (keyN x = projN k)) with _ | ⟨h2, t2⟩
      · rw [hE] at hlen
        simp at hlen
      · have ht2 : t2 ≠ [] := by
          rw [hE] at hlen
          intro h0
          rw [h0] at hlen
          simp at hlen
        have hh2run : h2 ∈ (List.insertionSort rel g).filter
            (fun x => decide (keyN x = projN k)) := by
          rw [hE]
          exact List.mem_cons_self _ _
        have hh2g : h2 ∈ g :=
          hsortperm.mem_iff.mp (List.mem_of_mem_filter hh2run)
        have hh2N : keyN h2 = projN k := by
          simpa using List.of_mem_filter hh2run
        have hx0g : x0 ∈ g := hksub.subset hx0
        have hx0N : keyN x0 = projN k := by
          rw [← hprojN x0, hk4]
        have hsz2 : h2.size = x0.size :=
          hsz h2 x0 (by rw [hkeys h2 hh2g, hkeys x0 hx0g])
            (by rw [hh2N, hx0N])
        have hx0sz : (key4 fs0 x0).1 = k.1 := congrArg Prod.fst hk4
        rw [key4_fst] at hx0sz
        have hpos := hq.2
        exact (yieldCondition_cons 0 h2 t2).mpr ⟨ht2, by omega⟩
    exact ⟨_, hcompl (projN k) hyc, hrun⟩


theorem tombFlat_nil (fs : FS) (c : List INodeFile) : tombFlat fs c [] = [] := rfl

theorem tombFlat_cons (fs : FS) (c : List INodeFile)
    (k : Nat × String × String × String)
    (Ks : List (Nat × String × String × String)) :
    tombFlat fs c (k :: Ks) = tombstones (classOf fs c k) ++ tombFlat fs c Ks := by
  simp [tombFlat]

/-- `for sha1sum_list in ...: base_item = sha1sum_list.popitem(); ...`:
processing a list of final groups, each a qualifying full-signature class,
merges every group into its last member, records one in-place update per
group and appends exactly the groups' tombstones to `merged_items`. -/
theorem mergeSha1Groups_spec (fs0 : FS) (c : List INodeFile) :
    ∀ (sgs : List (List INodeFile)) (st : MState),
      FSStaticEq st.1 fs0 →
      (∀ g ∈ sgs, ∃ k, qualifies fs0 c k ∧ g = classOf fs0 c k) →
      ∃ fs2 upds Ks,
        mergeSha1Groups st sgs
            = some (fs2, st.2.1 ++ upds, st.2.2 ++ tombFlat fs0 c Ks)
          ∧ FSStaticEq fs2 fs0
          ∧ upds.length = Ks.length
          ∧ (∀ u ∈ upds, ∃ gl ∈ c, u.1 = gl.inode ∧ eqExceptFiles u.2 gl)
          ∧ (∀ k2 ∈ Ks, qualifies fs0 c k2)
          ∧ ∀ k2, qualifies fs0 c k2 →
              (∃ g ∈ sgs, List.Sublist (classOf fs0 c k2) g) → k2 ∈ Ks := by
  intro sgs
  induction sgs with
  | nil =>
      intro st hst _
      refine ⟨st.1, [], [], ?_, hst, rfl, by simp, by simp, ?_⟩
      · simp [mergeSha1Groups, tombFlat]
      · rintro k2 _ ⟨g, hg, _⟩
        exact absurd hg (List.not_mem_nil g)
  | cons g gs ih =>
      intro st hst hq
      obtain ⟨k, hk, hgE⟩ := hq g (List.mem_cons_self _ _)
      have hgne : g ≠ [] := by
        intro h
        rw [h] at hgE
        exact classOf_ne_nil hk hgE.symm
      obtain ⟨glast, hglast⟩ : ∃ glast, g.getLast? = some glast := by
        cases hE : g.getLast? with
        | none => exact absurd (List.getLast?_eq_none_iff.mp hE) hgne
        | some x => exact ⟨x, rfl⟩
      have hglmem : glast ∈ c := by
        have hmem : glast ∈ g := List.mem_of_getLast?_eq_some hglast
        rw [hgE] at hmem
        exact List.mem_of_mem_filter hmem
      obtain ⟨fs1, base', hgrp, hstat1, hbase⟩ := mergeGroup_spec st g glast hglast
      obtain ⟨fs2, upds, Ks, hrec, hstat2, hlen, hupds, hsnd, hcpl⟩ :=
        ih (fs1, st.2.1 ++ [(glast.inode, base')], st.2.2 ++ tombstones g)
          (FSStaticEq_trans hstat1 hst)
          (fun g2 hg2 => hq g2 (List.mem_cons_of_mem _ hg2))
      refine ⟨fs2, (glast.inode, base') :: upds, k :: Ks, ?_, hstat2,
        by simp [hlen], ?_, ?_, ?_⟩
      · show (match mergeGroup st g with
          | none => none
          | some st1 => mergeSha1Groups st1 gs) = _
        rw [hgrp]
        show mergeSha1Groups (fs1, st.2.1 ++ [(glast.inode, base')],
          st.2.2 ++ tombstones g) gs = _
        rw [hrec, tombFlat_cons, ← hgE]
        simp
      · intro u hu
        rcases List.mem_cons.mp hu with rfl | hu
        · exact ⟨glast, hglmem, rfl, hbase⟩
        · exact hupds u hu
      · intro k2 hk2
        rcases List.mem_cons.mp hk2 with rfl | hk2
        · exact hk
        · exact hsnd k2 hk2
      · rintro k2 hq2 ⟨g2, hg2, hsb⟩
        rcases List.mem_cons.mp hg2 with rfl | hg2
        · have hne2 : classOf fs0 c k2 ≠ [] := classOf_ne_nil hq2
          obtain ⟨x0, hx0⟩ := List.exists_mem_of_ne_nil _ hne2
          have hx0g : x0 ∈ classOf fs0 c k := by
            rw [← hgE]
            exact hsb.subset hx0
          have hkk : k2 = k := by
            rw [← mem_classOf_key4 hx0, mem_classOf_key4 hx0g]
          rw [hkk]
          exact List.mem_cons_self _ _
        · exact List.mem_cons_of_mem _ (hcpl k2 hq2 ⟨g2, hg2, hsb⟩)

/-- A run the innermost (`sha1sum`) level yields is exactly one qualifying
full-signature class, in collection order. -/
theorem final_group_is_class (fs0 : FS) (c : List INodeFile) (g2 : List INodeFile)
    (hyc : yieldCondition 0 g2 = true)
    (hinv : chainInv
        (fun x => (((((), x.size), INodeFile.pVal fs0 x), INodeFile.mVal fs0 x),
          INodeFile.sVal fs0 x))
        (fun k => (((((), k.1), k.2.1), k.2.2.1), k.2.2.2)) fs0 c g2) :
    ∃ k, qualifies fs0 c k ∧ g2 = classOf fs0 c k := by
  obtain ⟨κ, hkeys, hperm, hsub⟩ := hinv
  obtain ⟨⟨⟨⟨⟨⟩, sz⟩, pv⟩, mv⟩, sv⟩ := κ
  simp only [] at hkeys hperm hsub
  have hfe : c.filter (fun r => decide
        ((((((), r.size), INodeFile.pVal fs0 r), INodeFile.mVal fs0 r),
          INodeFile.sVal fs0 r) = (((((), sz), pv), mv), sv)))
      = classOf fs0 c (sz, pv, mv, sv) := by
    unfold classOf
    refine List.filter_congr ?_
    intro x _
    rw [decide_eq_decide]
    simp [key4, Prod.ext_iff, and_assoc]
  have hperm2 : g2.Perm (classOf fs0 c (sz, pv, mv, sv)) := by
    rw [← hfe]
    exact hperm
  have hsub2 : List.Sublist (classOf fs0 c (sz, pv, mv, sv)) g2 :=
    hsub (sz, pv, mv, sv) rfl
  have hg2E : g2 = classOf fs0 c (sz, pv, mv, sv) :=
    (hsub2.eq_of_length hperm2.length_eq.symm).symm
  rcases hE : g2 with _ | ⟨h, t⟩
  · rw [hE, yieldCondition_nil] at hyc
    exact absurd hyc (by simp)
  · obtain ⟨ht, hpos⟩ := (yieldCondition_cons 0 h t).mp (hE ▸ hyc)
    have hhsz : h.size = sz := by
      have hh := hkeys h (hE ▸ List.mem_cons_self h t)
      have := congrArg (fun z => z.1.1.1.2) hh
      simpa using this
    refine ⟨(sz, pv, mv, sv), ⟨?_, ?_⟩, hE.symm.trans hg2E⟩
    · rw [← hperm2.length_eq, hE]
      have := List.length_pos.mpr ht
      simp
      omega
    · show 0 < sz
      omega
    

theorem tombFlat_append (fs : FS) (c : List INodeFile)
    (K1 K2 : List (Nat × String × String × String)) :
    tombFlat fs c (K1 ++ K2) = tombFlat fs c K1 ++ tombFlat fs c K2 := by
  simp [tombFlat]

theorem sha1Rel_refl (fs : FS) (a b : INodeFile)
    (h : INodeFile.sVal fs a = INodeFile.sVal fs b) : sha1Rel fs a b := by
  unfold sha1Rel
  rw [h]
  exact strLe_refl _

theorem sha1Rel_total (fs : FS) (a b : INodeFile) :
    sha1Rel fs a b ∨ sha1Rel fs b a := strLe_total _ _

theorem sha1Rel_trans (fs : FS) (a b c2 : INodeFile) :
    sha1Rel fs a b → sha1Rel fs b c2 → sha1Rel fs a c2 :=
  fun h1 h2 => strLe_trans h1 h2

theorem sha1Rel_anti (fs : FS) (a b c2 : INodeFile) (h1 : sha1Rel fs a b)
    (h2 : sha1Rel fs b c2) (he : INodeFile.sVal fs a = INodeFile.sVal fs c2) :
    INodeFile.sVal fs b = INodeFile.sVal fs a := by
  unfold sha1Rel at h1 h2
  rw [← he] at h2
  exact strLe_antisymm h2 h1

theorem md5Rel_refl (fs : FS) (a b : INodeFile)
    (h : INodeFile.mVal fs a = INodeFile.mVal fs b) : md5Rel fs a b := by
  unfold md5Rel
  rw [h]
  exact strLe_refl _

theorem md5Rel_total (fs : FS) (a b : INodeFile) :
    md5Rel fs a b ∨ md5Rel fs b a := strLe_total _ _

theorem md5Rel_trans (fs : FS) (a b c2 : INodeFile) :
    md5Rel fs a b → md5Rel fs b c2 → md5Rel fs a c2 :=
  fun h1 h2 => strLe_trans h1 h2

theorem md5Rel_anti (fs : FS) (a b c2 : INodeFile) (h1 : md5Rel fs a b)
    (h2 : md5Rel fs b c2) (he : INodeFile.mVal fs a = INodeFile.mVal fs c2) :
    INodeFile.mVal fs b = INodeFile.mVal fs a := by
  unfold md5Rel at h1 h2
  rw [← he] at h2
  exact strLe_antisymm h2 h1

theorem pmd5Rel_refl (fs : FS) (a b : INodeFile)
    (h : INodeFile.pVal fs a = INodeFile.pVal fs b) : pmd5Rel fs a b := by
  unfold pmd5Rel
  rw [h]
  exact strLe_refl _

theorem pmd5Rel_total (fs : FS) (a b : INodeFile) :
    pmd5Rel fs a b ∨ pmd5Rel fs b a := strLe_total _ _

theorem pmd5Rel_trans (fs : FS) (a b c2 : INodeFile) :
    pmd5Rel fs a b → pmd5Rel fs b c2 → pmd5Rel fs a c2 :=
  fun h1 h2 => strLe_trans h1 h2

theorem pmd5Rel_anti (fs : FS) (a b c2 : INodeFile) (h1 : pmd5Rel fs a b)
    (h2 : pmd5Rel fs b c2) (he : INodeFile.pVal fs a = INodeFile.pVal fs c2) :
    INodeFile.pVal fs b = INodeFile.pVal fs a := by
  unfold pmd5Rel at h1 h2
  rw [← he] at h2
  exact strLe_antisymm h2 h1

theorem sizeRel_refl (a b : INodeFile) (h : a.size = b.size) : sizeRel a b := by
  unfold sizeRel
  omega

theorem sizeRel_total (a b : INodeFile) : sizeRel a b ∨ sizeRel b a := by
  unfold sizeRel
  omega

theorem sizeRel_trans (a b c2 : INodeFile) :
    sizeRel a b → sizeRel b c2 → sizeRel a c2 := by
  unfold sizeRel
  omega

theorem sizeRel_anti (a b c2 : INodeFile) (h1 : sizeRel a b) (h2 : sizeRel b c2)
    (he : a.size = c2.size) : b.size = a.size := by
  unfold sizeRel at h1 h2
  omega

/-- `for md5sum_list in prefix_md5sum_list.iter_list('md5sum'): ...`: over
groups satisfying the size+prefix+md5 invariant. -/
theorem mergeMd5Groups_spec (fs0 : FS) (c : List INodeFile) :
    ∀ (mgs : List (List INodeFile)) (st : MState),
      FSStaticEq st.1 fs0 →
      (∀ g ∈ mgs, g ≠ [] ∧ chainInv
          (fun x => ((((), x.size), INodeFile.pVal fs0 x), INodeFile.mVal fs0 x))
          (fun k => ((((), k.1), k.2.1), k.2.2.1)) fs0 c g) →
      ∃ fs2 upds Ks,
        mergeMd5Groups st mgs
            = some (fs2, st.2.1 ++ upds, st.2.2 ++ tombFlat fs0 c Ks)
          ∧ FSStaticEq fs2 fs0
          ∧ upds.length = Ks.length
          ∧ (∀ u ∈ upds, ∃ gl ∈ c, u.1 = gl.inode ∧ eqExceptFiles u.2 gl)
          ∧ (∀ k2 ∈ Ks, qualifies fs0 c k2)
          ∧ ∀ k2, qualifies fs0 c k2 →
              (∃ g ∈ mgs, List.Sublist (classOf fs0 c k2) g) → k2 ∈ Ks := by
  intro mgs
  induction mgs with
  | nil =>
      intro st hst _
      refine ⟨st.1, [], [], ?_, hst, rfl, by simp, by simp, ?_⟩
      · simp [mergeMd5Groups, tombFlat]
      · rintro k2 _ ⟨g, hg, _⟩
        exact absurd hg (List.not_mem_nil g)
  | cons g gs ih =>
      intro st hst hq
      obtain ⟨hgne, hinv⟩ := hq g (List.mem_cons_self _ _)
      obtain ⟨sgs, hiter, hsubs, hcomp⟩ := chainInv_step fs0 c
        (fun x => ((((), x.size), INodeFile.pVal fs0 x), INodeFile.mVal fs0 x))
        (fun k => ((((), k.1), k.2.1), k.2.2.1))
        (INodeFile.sVal fs0) (fun k => k.2.2.2)
        (sha1Rel fs0)
        (fun r => rfl) (fun r => rfl)
        (sha1Rel_refl fs0) (sha1Rel_total fs0) (sha1Rel_trans fs0)
        (sha1Rel_anti fs0)
        (fun x y hxy _ => by simpa using congrArg (fun z => z.1.1.2) hxy)
        g hgne hinv
      have hiter2 : iter_list_sha1 st.1 0 g
          = some (List.insertionSort (sha1Rel fs0) g, sgs) := by
        rw [iter_list_sha1_congr hst 0 g]
        exact hiter
      have hcls : ∀ g2 ∈ sgs, ∃ k, qualifies fs0 c k ∧ g2 = classOf fs0 c k := by
        intro g2 hg2
        obtain ⟨_, hyc, hinv2⟩ := hsubs g2 hg2
        exact final_group_is_class fs0 c g2 hyc hinv2
      obtain ⟨fs2, upds1, Ks1, hsha, hstat1, hlen1, hupds1, hsnd1, hcpl1⟩ :=
        mergeSha1Groups_spec fs0 c sgs st hst hcls
      obtain ⟨fs3, upds2, Ks2, hrec, hstat2, hlen2, hupds2, hsnd2, hcpl2⟩ :=
        ih (fs2, st.2.1 ++ upds1, st.2.2 ++ tombFlat fs0 c Ks1) hstat1
          (fun g2 hg2 => hq g2 (List.mem_cons_of_mem _ hg2))
      refine ⟨fs3, upds1 ++ upds2, Ks1 ++ Ks2, ?_, hstat2,
        by simp [hlen1, hlen2], ?_, ?_, ?_⟩
      · show (match iter_list_sha1 st.1 0 g with
            | none => none
            | some (_, sgs2) =>
                match mergeSha1Groups st sgs2 with
                | none => none
                | some st1 => mergeMd5Groups st1 gs) = _
        rw [hiter2]
        show (match mergeSha1Groups st sgs with
            | none => none
            | some st1 => mergeMd5Groups st1 gs) = _
        rw [hsha]
        show mergeMd5Groups (fs2, st.2.1 ++ upds1, st.2.2 ++ tombFlat fs0 c Ks1)
          gs = _
        rw [hrec, tombFlat_append]
        simp
      · intro u hu
        rcases List.mem_append.mp hu with hu | hu
        · exact hupds1 u hu
        · exact hupds2 u hu
      · intro k2 hk2
        rcases List.mem_append.mp hk2 with hk2 | hk2
        · exact hsnd1 k2 hk2
        · exact hsnd2 k2 hk2
      · rintro k2 hq2 ⟨g2, hg2, hsb⟩
        rcases List.mem_cons.mp hg2 with rfl | hg2
        · obtain ⟨g3, hg3, hsb3⟩ := hcomp k2 hq2 hsb
          exact List.mem_append_left _ (hcpl1 k2 hq2 ⟨g3, hg3, hsb3⟩)
        · exact List.mem_append_right _ (hcpl2 k2 hq2 ⟨g2, hg2, hsb⟩)

/-- `for prefix_md5sum_list in size_list.iter_list('prefix_md5sum'): ...`:
over groups satisfying the size+prefix invariant. -/
theorem mergePmd5Groups_spec (fs0 : FS) (c : List INodeFile) :
    ∀ (pgs : List (List INodeFile)) (st : MState),
      FSStaticEq st.1 fs0 →
      (∀ g ∈ pgs, g ≠ [] ∧ chainInv
          (fun x => (((), x.size), INodeFile.pVal fs0 x))
          (fun k => (((), k.1), k.2.1)) fs0 c g) →
      ∃ fs2 upds Ks,
        mergePmd5Groups st pgs
            = some (fs2, st.2.1 ++ upds, st.2.2 ++ tombFlat fs0 c Ks)
          ∧ FSStaticEq fs2 fs0
          ∧ upds.length = Ks.length
          ∧ (∀ u ∈ upds, ∃ gl ∈ c, u.1 = gl.inode ∧ eqExceptFiles u.2 gl)
          ∧ (∀ k2 ∈ Ks, qualifies fs0 c k2)
          ∧ ∀ k2, qualifies fs0 c k2 →
              (∃ g ∈ pgs, List.Sublist (classOf fs0 c k2) g) → k2 ∈ Ks := by
  intro pgs
  induction pgs with
  | nil =>
      intro st hst _
      refine ⟨st.1, [], [], ?_, hst, rfl, by simp, by simp, ?_⟩
      · simp [mergePmd5Groups, tombFlat]
      · rintro k2 _ ⟨g, hg, _⟩
        exact absurd hg (List.not_mem_nil g)
  | cons g gs ih =>
      intro st hst hq
      obtain ⟨hgne, hinv⟩ := hq g (List.mem_cons_self _ _)
      obtain ⟨mgs, hiter, hsubs, hcomp⟩ := chainInv_step fs0 c
        (fun x => (((), x.size), INodeFile.pVal fs0 x))
        (fun k => (((), k.1), k.2.1))
        (INodeFile.mVal fs0) (fun k => k.2.2.1)
        (md5Rel fs0)
        (fun r => rfl) (fun r => rfl)
        (md5Rel_refl fs0) (md5Rel_total fs0) (md5Rel_trans fs0)
        (md5Rel_anti fs0)
        (fun x y hxy _ => by simpa using congrArg (fun z => z.1.2) hxy)
        g hgne hinv
      have hiter2 : iter_list_md5 st.1 0 g
          = some (List.insertionSort (md5Rel fs0) g, mgs) := by
        rw [iter_list_md5_congr hst 0 g]
        exact hiter
      obtain ⟨fs2, upds1, Ks1, hmd5, hstat1, hlen1, hupds1, hsnd1, hcpl1⟩ :=
        mergeMd5Groups_spec fs0 c mgs st hst
          (fun g2 hg2 => ⟨(hsubs g2 hg2).1, (hsubs g2 hg2).2.2⟩)
      obtain ⟨fs3, upds2, Ks2, hrec, hstat2, hlen2, hupds2, hsnd2, hcpl2⟩ :=
        ih (fs2, st.2.1 ++ upds1, st.2.2 ++ tombFlat fs0 c Ks1) hstat1
          (fun g2 hg2 => hq g2 (List.mem_cons_of_mem _ hg2))
      refine ⟨fs3, upds1 ++ upds2, Ks1 ++ Ks2, ?_, hstat2,
        by simp [hlen1, hlen2], ?_, ?_, ?_⟩
      · show (match iter_list_md5 st.1 0 g with
            | none => none
            | some (_, mgs2) =>
                match mergeMd5Groups st mgs2 with
                | none => none
                | some st1 => mergePmd5Groups st1 gs) = _
        rw [hiter2]
        show (match mergeMd5Groups st mgs with
            | none => none
            | some st1 => mergePmd5Groups st1 gs) = _
        rw [hmd5]
        show mergePmd5Groups (fs2, st.2.1 ++ upds1, st.2.2 ++ tombFlat fs0 c Ks1)
          gs = _
        rw [hrec, tombFlat_append]
        simp
      · intro u hu
        rcases List.mem_append.mp hu with hu | hu
        · exact hupds1 u hu
        · exact hupds2 u hu
      · intro k2 hk2
        rcases List.mem_append.mp hk2 with hk2 | hk2
        · exact hsnd1 k2 hk2
        · exact hsnd2 k2 hk2
      · rintro k2 hq2 ⟨g2, hg2, hsb⟩
        rcases List.mem_cons.mp hg2 with rfl | hg2
        · obtain ⟨g3, hg3, hsb3⟩ := hcomp k2 hq2 hsb
          exact List.mem_append_left _ (hcpl1 k2 hq2 ⟨g3, hg3, hsb3⟩)
        · exact List.mem_append_right _ (hcpl2 k2 hq2 ⟨g2, hg2, hsb⟩)

/-- `for size_list in self.iter_list('size'): ...`: over groups satisfying
the size invariant. -/
theorem mergeSizeGroups_spec (fs0 : FS) (c : List INodeFile) :
    ∀ (zgs : List (List INodeFile)) (st : MState),
      FSStaticEq st.1 fs0 →
      (∀ g ∈ zgs, g ≠ [] ∧ chainInv
          (fun x => ((), x.size)) (fun k => ((), k.1)) fs0 c g) →
      ∃ fs2 upds Ks,
        mergeSizeGroups st zgs
            = some (fs2, st.2.1 ++ upds, st.2.2 ++ tombFlat fs0 c Ks)
          ∧ FSStaticEq fs2 fs0
          ∧ upds.length = Ks.length
          ∧ (∀ u ∈ upds, ∃ gl ∈ c, u.1 = gl.inode ∧ eqExceptFiles u.2 gl)
          ∧ (∀ k2 ∈ Ks, qualifies fs0 c k2)
          ∧ ∀ k2, qualifies fs0 c k2 →
              (∃ g ∈ zgs, List.Sublist (classOf fs0 c k2) g) → k2 ∈ Ks := by
  intro zgs
  induction zgs with
  | nil =>
      intro st hst _
      refine ⟨st.1, [], [], ?_, hst, rfl, by simp, by simp, ?_⟩
      · simp [mergeSizeGroups, tombFlat]
      · rintro k2 _ ⟨g, hg, _⟩
        exact absurd hg (List.not_mem_nil g)
  | cons g gs ih =>
      intro st hst hq
      obtain ⟨hgne, hinv⟩ := hq g (List.mem_cons_self _ _)
      obtain ⟨pgs, hiter, hsubs, hcomp⟩ := chainInv_step fs0 c
        (fun x => ((), x.size)) (fun k => ((), k.1))
        (INodeFile.pVal fs0) (fun k => k.2.1)
        (pmd5Rel fs0)
        (fun r => rfl) (fun r => rfl)
        (pmd5Rel_refl fs0) (pmd5Rel_total fs0) (pmd5Rel_trans fs0)
        (pmd5Rel_anti fs0)
        (fun x y hxy _ => by simpa using congrArg (fun z => z.2) hxy)
        g hgne hinv
      have hiter2 : iter_list_pmd5 st.1 0 g
          = some (List.insertionSort (pmd5Rel fs0) g, pgs) := by
        rw [iter_list_pmd5_congr hst 0 g]
        exact hiter
      obtain ⟨fs2, upds1, Ks1, hpm, hstat1, hlen1, hupds1, hsnd1, hcpl1⟩ :=
        mergePmd5Groups_spec fs0 c pgs st hst
          (fun g2 hg2 => ⟨(hsubs g2 hg2).1, (hsubs g2 hg2).2.2⟩)
      obtain ⟨fs3, upds2, Ks2, hrec, hstat2, hlen2, hupds2, hsnd2, hcpl2⟩ :=
        ih (fs2, st.2.1 ++ upds1, st.2.2 ++ tombFlat fs0 c Ks1) hstat1
          (fun g2 hg2 => hq g2 (List.mem_cons_of_mem _ hg2))
      refine ⟨fs3, upds1 ++ upds2, Ks1 ++ Ks2, ?_, hstat2,
        by simp [hlen1, hlen2], ?_, ?_, ?_⟩
      · show (match iter_list_pmd5 st.1 0 g with
            | none => none
            | some (_, pgs2) =>
                match mergePmd5Groups st pgs2 with
                | none => none
                | some st1 => mergeSizeGroups st1 gs) = _
        rw [hiter2]
        show (match mergePmd5Groups st pgs with
            | none => none
            | some st1 => mergeSizeGroups st1 gs) = _
        rw [hpm]
        show mergeSizeGroups (fs2, st.2.1 ++ upds1, st.2.2 ++ tombFlat fs0 c Ks1)
          gs = _
        rw [hrec, tombFlat_append]
        simp
      · intro u hu
        rcases List.mem_append.mp hu with hu | hu
        · exact hupds1 u hu
        · exact hupds2 u hu
      · intro k2 hk2
        rcases List.mem_append.mp hk2 with hk2 | hk2
        · exact hsnd1 k2 hk2
        · exact hsnd2 k2 hk2
      · rintro k2 hq2 ⟨g2, hg2, hsb⟩
        rcases List.mem_cons.mp hg2 with rfl | hg2
        · obtain ⟨g3, hg3, hsb3⟩ := hcomp k2 hq2 hsb
          exact List.mem_append_left _ (hcpl1 k2 hq2 ⟨g3, hg3, hsb3⟩)
        · exact List.mem_append_right _ (hcpl2 k2 hq2 ⟨g2, hg2, hsb⟩)

/-- Characterisation of `INodeFileList.merge` on a nonempty collection: it
succeeds; `merged_items` consists exactly of the tombstones of the
qualifying full-signature classes (a key list `Ks`, sound and complete);
one in-place base update is recorded per class; the filesystem keeps its
contents and digest functions; and the collection left behind is the
size-sorted collection with merged inodes removed and bases re-read
through their inode keys. -/
theorem merge_master (fs : FS) (c : List INodeFile) (hne : c ≠ []) :
    ∃ fs2 upds Ks,
      INodeFileList.merge fs c
          = some (fs2, mergedColl fs c upds Ks, tombFlat fs c Ks)
        ∧ FSStaticEq fs2 fs
        ∧ upds.length = Ks.length
        ∧ (∀ u ∈ upds, ∃ gl ∈ c, u.1 = gl.inode ∧ eqExceptFiles u.2 gl)
        ∧ (∀ k ∈ Ks, qualifies fs c k)
        ∧ ∀ k, qualifies fs c k → k ∈ Ks := by
  have hinv : chainInv (fun _ : INodeFile => ()) (fun _ => ()) fs c c := by
    refine ⟨(), fun x _ => rfl, ?_, fun k _ => classOf_sublist fs c k⟩
    have h0 : c.filter (fun r => decide ((() : Unit) = ())) = c :=
      List.filter_eq_self.mpr (fun a _ => by simp)
    rw [h0]
  obtain ⟨zgs, hiter, hsubs, hcomp⟩ := chainInv_step fs c
    (fun _ => ()) (fun _ => ())
    (fun r => r.size) (fun k => k.1)
    sizeRel
    (fun r => rfl) (fun r => rfl)
    sizeRel_refl sizeRel_total sizeRel_trans sizeRel_anti
    (fun x y _ h2 => h2)
    c hne hinv
  have hiter2 : iter_list_size 0 c
      = some (List.insertionSort sizeRel c, zgs) := hiter
  obtain ⟨fs2, upds, Ks, hsz, hstat, hlen, hupds, hsnd, hcpl⟩ :=
    mergeSizeGroups_spec fs c zgs (fs, [], []) (FSStaticEq_refl fs)
      (fun g2 hg2 => ⟨(hsubs g2 hg2).1, (hsubs g2 hg2).2.2⟩)
  refine ⟨fs2, upds, Ks, ?_, hstat, hlen, hupds, hsnd, ?_⟩
  · simp only [INodeFileList.merge, hiter2, hsz]
    simp [mergedColl]
  · intro k hk
    exact hcpl k hk (hcomp k hk (classOf_sublist fs c k))


theorem inode_inj {c : List INodeFile} (hnodup : (c.map INodeFile.inode).Nodup)
    {a b : INodeFile} (ha : a ∈ c) (hb : b ∈ c) (h : a.inode = b.inode) : a = b :=
  List.inj_on_of_nodup_map hnodup ha hb h

theorem tombstones_of_getLast (g : List INodeFile) (glast : INodeFile)
    (h : g.getLast? = some glast) :
    tombstones g
      = g.dropLast.map (fun y => { y with merged_into := some glast.inode }) := by
  unfold tombstones
  rw [h]

theorem tomb_mem_tombFlat {fs : FS} {c : List INodeFile}
    {Ks : List (Nat × String × String × String)}
    {k : Nat × String × String × String} (hk : k ∈ Ks) {m : INodeFile}
    (hm : m ∈ tombstones (classOf fs c k)) : m ∈ tombFlat fs c Ks :=
  List.mem_flatten.mpr ⟨_, List.mem_map.mpr ⟨k, hk, rfl⟩, hm⟩

theorem tombFlat_mem_inv {fs : FS} {c : List INodeFile}
    {Ks : List (Nat × String × String × String)} {m : INodeFile}
    (h : m ∈ tombFlat fs c Ks) :
    ∃ k ∈ Ks, m ∈ tombstones (classOf fs c k) := by
  obtain ⟨l, hl, hml⟩ := List.mem_flatten.mp h
  obtain ⟨k, hk, hlE⟩ := List.mem_map.mp hl
  exact ⟨k, hk, hlE ▸ hml⟩

theorem mem_tombstones_inv {g : List INodeFile} {m : INodeFile}
    (h : m ∈ tombstones g) :
    ∃ glast, g.getLast? = some glast
      ∧ ∃ y ∈ g.dropLast, m = { y with merged_into := some glast.inode } := by
  unfold tombstones at h
  cases hE : g.getLast? with
  | none =>
      rw [hE] at h
      exact absurd h (List.not_mem_nil m)
  | some glast =>
      rw [hE] at h
      obtain ⟨y, hy, hyE⟩ := List.mem_map.mp h
      exact ⟨glast, rfl, y, hy, hyE.symm⟩

theorem mergedColl_mem {fs : FS} {c : List INodeFile}
    {upds : List (Nat × INodeFile)}
    {Ks : List (Nat × String × String × String)} {r : INodeFile} :
    r ∈ mergedColl fs c upds Ks ↔ ∃ y ∈ List.insertionSort sizeRel c,
      (∀ m ∈ tombFlat fs c Ks, m.inode ≠ y.inode)
      ∧ r = ((upds.find? (fun u => decide (u.1 = y.inode))).map Prod.snd).getD y := by
  unfold mergedColl
  constructor
  · intro h
    obtain ⟨y, hy, hyE⟩ := List.mem_map.mp h
    obtain ⟨hy1, hy2⟩ := List.mem_filter.mp hy
    refine ⟨y, hy1, ?_, hyE.symm⟩
    intro m hm hmi
    have h3 : (tombFlat fs c Ks).any (fun m => decide (m.inode = y.inode))
        = false := by
      cases h4 : (tombFlat fs c Ks).any (fun m => decide (m.inode = y.inode)) with
      | false => rfl
      | true =>
          rw [h4] at hy2
          exact absurd hy2 (by simp)
    have h5 := List.any_eq_false.mp h3 m hm
    exact h5 (decide_eq_true hmi)
  · rintro ⟨y, hy1, hy2, rfl⟩
    refine List.mem_map.mpr ⟨y, List.mem_filter.mpr ⟨hy1, ?_⟩, rfl⟩
    have h3 : (tombFlat fs c Ks).any (fun m => decide (m.inode = y.inode))
        = false :=
      List.any_eq_false.mpr
        (fun m hm h4 => hy2 m hm (of_decide_eq_true h4))
    rw [h3]
    rfl

theorem find_upd_eqExcept {c : List INodeFile}
    (hnodup : (c.map INodeFile.inode).Nodup) {upds : List (Nat × INodeFile)}
    (hupds : ∀ u ∈ upds, ∃ gl ∈ c, u.1 = gl.inode ∧ eqExceptFiles u.2 gl)
    {y : INodeFile} (hy : y ∈ c) :
    eqExceptFiles
      (((upds.find? (fun u => decide (u.1 = y.inode))).map Prod.snd).getD y) y := by
  cases hf : upds.find? (fun u => decide (u.1 = y.inode)) with
  | none => exact eqExceptFiles_refl y
  | some u =>
      have hmem := List.mem_of_find?_eq_some hf
      have hui : u.1 = y.inode := by simpa using List.find?_some hf
      obtain ⟨gl, hgl, hgli, hglE⟩ := hupds u hmem
      have hgy : gl = y := inode_inj hnodup hgl hy (by rw [← hgli, hui])
      rw [← hgy]
      exact hglE

theorem classOf_nodup {fs : FS} {c : List INodeFile}
    (hnodup : (c.map INodeFile.inode).Nodup)
    (k : Nat × String × String × String) : (classOf fs c k).Nodup :=
  (List.Nodup.of_map INodeFile.inode hnodup).sublist (classOf_sublist fs c k)


theorem survivor_not_merged {fs : FS} {c : List INodeFile}
    {Ks : List (Nat × String × String × String)}
    (hnodup : (c.map INodeFile.inode).Nodup)
    {k : Nat × String × String × String}
    {survivor : INodeFile} (hgl : (classOf fs c k).getLast? = some survivor)
    {m : INodeFile} (hm : m ∈ tombFlat fs c Ks) : m.inode ≠ survivor.inode := by
  intro hmi
  obtain ⟨k2, _, hm2⟩ := tombFlat_mem_inv hm
  obtain ⟨gl2, hgl2, y, hy, hymE⟩ := mem_tombstones_inv hm2
  have hyc : y ∈ classOf fs c k2 := (List.dropLast_sublist _).subset hy
  have hsc : survivor ∈ classOf fs c k := List.mem_of_getLast?_eq_some hgl
  have hyi : m.inode = y.inode := by rw [hymE]
  have hys : y = survivor :=
    inode_inj hnodup (mem_classOf_mem hyc) (mem_classOf_mem hsc)
      (by rw [← hyi, hmi])
  have hkk : k2 = k := by
    rw [← mem_classOf_key4 hyc, hys, mem_classOf_key4 hsc]
  rw [hkk] at hy
  have hnd : (classOf fs c k).Nodup := classOf_nodup hnodup k
  have hsplit := (List.dropLast_append_getLast? survivor hgl).symm
  rw [hsplit] at hnd
  have hdisj := List.disjoint_of_nodup_append hnd
  exact hdisj hy (by rw [hys]; exact List.mem_singleton.mpr rfl)

theorem tomb_of_dropLast {fs : FS} {c : List INodeFile}
    {Ks : List (Nat × String × String × String)}
    {k : Nat × String × String × String} (hk : k ∈ Ks)
    {survivor : INodeFile} (hgl : (classOf fs c k).getLast? = some survivor)
    {x : INodeFile} (hx : x ∈ (classOf fs c k).dropLast) :
    { x with merged_into := some survivor.inode } ∈ tombFlat fs c Ks := by
  refine tomb_mem_tombFlat hk ?_
  rw [tombstones_of_getLast _ _ hgl]
  exact List.mem_map.mpr ⟨x, hx, rfl⟩

theorem mergedColl_ne_nil {fs : FS} {c : List INodeFile}
    (hnodup : (c.map INodeFile.inode).Nodup) {upds : List (Nat × INodeFile)}
    {Ks : List (Nat × String × String × String)}
    (hsnd : ∀ k ∈ Ks, qualifies fs c k) (hne : c ≠ []) :
    mergedColl fs c upds Ks ≠ [] := by
  obtain ⟨r0, hr0⟩ := List.exists_mem_of_ne_nil _ hne
  have hwitness : ∃ y ∈ c, ∀ m ∈ tombFlat fs c Ks, m.inode ≠ y.inode := by
    by_cases hq0 : qualifies fs c (key4 fs r0)
    · have hclne : classOf fs c (key4 fs r0) ≠ [] := classOf_ne_nil hq0
      obtain ⟨sv, hgl⟩ : ∃ sv, (classOf fs c (key4 fs r0)).getLast? = some sv := by
        cases hE : (classOf fs c (key4 fs r0)).getLast? with
        | none => exact absurd (List.getLast?_eq_none_iff.mp hE) hclne
        | some x => exact ⟨x, rfl⟩
      exact ⟨sv, mem_classOf_mem (List.mem_of_getLast?_eq_some hgl),
        fun m hm => survivor_not_merged hnodup hgl hm⟩
    · refine ⟨r0, hr0, ?_⟩
      intro m hm hmi
      obtain ⟨k2, hk2, hm2⟩ := tombFlat_mem_inv hm
      obtain ⟨gl2, _, y, hy, hymE⟩ := mem_tombstones_inv hm2
      have hyc : y ∈ classOf fs c k2 := (List.dropLast_sublist _).subset hy
      have hyi : m.inode = y.inode := by rw [hymE]
      have hyr : y = r0 :=
        inode_inj hnodup (mem_classOf_mem hyc) hr0 (by rw [← hyi, hmi])
      have hk2E : k2 = key4 fs r0 := by
        rw [← mem_classOf_key4 hyc, hyr]
      exact hq0 (hk2E ▸ hsnd k2 hk2)
  obtain ⟨y, hyc, hynm⟩ := hwitness
  have hy1 : y ∈ List.insertionSort sizeRel c :=
    (List.perm_insertionSort sizeRel c).mem_iff.mpr hyc
  exact List.ne_nil_of_mem (mergedColl_mem.mpr ⟨y, hy1, hynm, rfl⟩)

/-- After one merge pass no full-signature class of the remaining
collection qualifies any more: every qualifying class of the input lost
all members but its survivor, and no other class lost or gained members
(digest values being preserved by `FSStaticEq` and `eqExceptFiles`). -/
theorem merged_no_qualifies {fs fs2 : FS} {c : List INodeFile}
    (hnodup : (c.map INodeFile.inode).Nodup) (hstat : FSStaticEq fs2 fs)
    {upds : List (Nat × INodeFile)}
    {Ks : List (Nat × String × String × String)}
    (hupds : ∀ u ∈ upds, ∃ gl ∈ c, u.1 = gl.inode ∧ eqExceptFiles u.2 gl)
    (hsnd : ∀ k ∈ Ks, qualifies fs c k)
    (hcpl : ∀ k, qualifies fs c k → k ∈ Ks) :
    ∀ k, ¬ qualifies fs2 (mergedColl fs c upds Ks) k := by
  intro k hq2
  set f : INodeFile → INodeFile := fun y =>
    ((upds.find? (fun u => decide (u.1 = y.inode))).map Prod.snd).getD y with hfdef
  set nm : INodeFile → Bool := fun y =>
    !((tombFlat fs c Ks).any (fun m => decide (m.inode = y.inode))) with hnmdef
  set q : INodeFile → Bool := fun y => decide (key4 fs y = k) with hqdef
  have hc1 : mergedColl fs c upds Ks
      = ((List.insertionSort sizeRel c).filter nm).map f := rfl
  have hkey : ∀ y ∈ (List.insertionSort sizeRel c).filter nm,
      key4 fs2 (f y) = key4 fs y := by
    intro y hy
    have hyc : y ∈ c := (List.perm_insertionSort sizeRel c).mem_iff.mp
      (List.mem_of_mem_filter hy)
    have hre : eqExceptFiles (f y) y := find_upd_eqExcept hnodup hupds hyc
    rw [key4_congr hstat, eqExceptFiles_key4 fs hre]
  have hL1 : (((List.insertionSort sizeRel c).filter nm).filter
        ((fun r => decide (key4 fs2 r = k)) ∘ f)).map f
      = classOf fs2 (mergedColl fs c upds Ks) k := by
    rw [hc1]
    unfold classOf
    exact (List.filter_map f _).symm
  have hL2 : ((List.insertionSort sizeRel c).filter nm).filter
        ((fun r => decide (key4 fs2 r = k)) ∘ f)
      = ((List.insertionSort sizeRel c).filter nm).filter q := by
    refine List.filter_congr ?_
    intro y hy
    show decide (key4 fs2 (f y) = k) = q y
    rw [hqdef, hkey y hy]
  have hLen : (classOf fs2 (mergedColl fs c upds Ks) k).length
      = (c.filter (fun a => q a && nm a)).length := by
    rw [← hL1, List.length_map, hL2, List.filter_filter]
    exact ((List.perm_insertionSort sizeRel c).filter _).length_eq
  have h1lt : 1 < (c.filter (fun a => q a && nm a)).length := by
    have h2 := hq2.1
    rw [hLen] at h2
    exact h2
  by_cases hqk : qualifies fs c k
  · have hclne : classOf fs c k ≠ [] := classOf_ne_nil hqk
    obtain ⟨survivor, hgl⟩ : ∃ sv, (classOf fs c k).getLast? = some sv := by
      cases hE : (classOf fs c k).getLast? with
      | none => exact absurd (List.getLast?_eq_none_iff.mp hE) hclne
      | some x => exact ⟨x, rfl⟩
    have hconst : ∀ a ∈ c.filter (fun a => q a && nm a), a = survivor := by
      intro a ha
      obtain ⟨hac, hab⟩ := List.mem_filter.mp ha
      rw [Bool.and_eq_true] at hab
      obtain ⟨haq, hanm⟩ := hab
      have hak : key4 fs a = k := by
        rw [hqdef] at haq
        exact of_decide_eq_true haq
      have hacl : a ∈ classOf fs c k := by
        unfold classOf
        exact List.mem_filter.mpr ⟨hac, decide_eq_true hak⟩
      have hanm2 : ((tombFlat fs c Ks).any
          (fun m => decide (m.inode = a.inode))) = false := by
        rw [hnmdef] at hanm
        simpa using hanm
      have hnm3 : ∀ m ∈ tombFlat fs c Ks, m.inode ≠ a.inode := by
        intro m hm hmi
        exact (List.any_eq_false.mp hanm2 m hm) (decide_eq_true hmi)
      have hsplit := (List.dropLast_append_getLast? survivor hgl).symm
      rw [hsplit] at hacl
      rcases List.mem_append.mp hacl with h | h
      · exact absurd (rfl : ({ a with merged_into := some survivor.inode } : INodeFile).inode = a.inode)
          (hnm3 _ (tomb_of_dropLast (hcpl k hqk) hgl h))
      · exact List.mem_singleton.mp h
    have hnd : (c.filter (fun a => q a && nm a)).Nodup :=
      (List.Nodup.of_map INodeFile.inode hnodup).sublist (List.filter_sublist c)
    have hle := length_le_one_of_nodup_const _ survivor hnd hconst
    omega
  · have hdec : (classOf fs c k).length ≤ 1 ∨ k.1 = 0 := by
      unfold qualifies at hqk
      rcases Nat.lt_or_ge 1 (classOf fs c k).length with h | h
      · right
        rcases Nat.eq_zero_or_pos k.1 with h2 | h2
        · exact h2
        · exact absurd ⟨h, h2⟩ hqk
      · left
        omega
    rcases hdec with hlen1 | hk0
    · have hsub : (c.filter (fun a => q a && nm a)).length
          ≤ (c.filter q).length := by
        rw [← List.filter_filter]
        exact ((List.filter_sublist c).filter q).length_le
      have hcq : c.filter q = classOf fs c k := by
        rw [hqdef]
        rfl
      rw [hcq] at hsub
      omega
    · have h2 := hq2.2
      omega

end MergeCascade

/-- C3.  Within `Merge(other)` every path of `other` goes through the
rename/link/remove sequence independently (`mergeTrace` records the final
filesystem and which paths had all three operations succeed); a path whose
sequence fails at any step is skipped with a warning and not added, every
successful path is added to `self`'s path set, and `other.merged_into` is
set to `self` after all paths were attempted, regardless of failures.
Hypotheses: `self` is live (has a path), its first path is a hardlink to
its inode, and no processed path or backup name collides with it. -/
theorem c3_merge_error_handling (fs : FS) (slf other : INodeFile)
    (h0 : slf.files ≠ [])
    (h1 : fs.ino slf.file = some slf.inode)
    (h2 : ∀ p ∈ other.files, p ≠ slf.file ∧ p ++ ".file_merge-bu" ≠ slf.file) :
    INodeFile.mergeRec fs slf other
        = ((mergeTrace fs slf.file other.files).1,
           { slf with
             files := List.foldl INodeFile.insertPath slf.files (mergeTrace fs slf.file other.files).2 },
           { other with merged_into := some slf.inode })
      ∧ (∀ q, q ∈ (INodeFile.mergeRec fs slf other).2.1.files ↔
            q ∈ slf.files ∨ q ∈ (mergeTrace fs slf.file other.files).2) := by
  have hfold := mergeStep_foldl other.files fs slf h0 h1 h2
  constructor
  · unfold INodeFile.mergeRec
    rw [hfold]
  · intro q
    unfold INodeFile.mergeRec
    rw [hfold]
    exact mem_foldl_insertPath _ _ _

/-- C3 witness: merging `recPQ` (paths `/p`, allowed, and `/q`, permission
denied) into `recA`: `/p` is relinked and added, `/q` is skipped, and
`recPQ` is tombstoned regardless. -/
theorem c3_merge_error_handling_witness :
    recA.files ≠ [] ∧ testFS.ino recA.file = some recA.inode
      ∧ (∀ p ∈ recPQ.files, p ≠ recA.file ∧ p ++ ".file_merge-bu" ≠ recA.file)
      ∧ (INodeFile.mergeRec testFS recA recPQ
            = ((mergeTrace testFS recA.file recPQ.files).1,
               { recA with
                 files := List.foldl INodeFile.insertPath recA.files (mergeTrace testFS recA.file recPQ.files).2 },
               { recPQ with merged_into := some recA.inode })
          ∧ ∀ q, q ∈ (INodeFile.mergeRec testFS recA recPQ).2.1.files ↔
              q ∈ recA.files ∨ q ∈ (mergeTrace testFS recA.file recPQ.files).2)
      ∧ (mergeTrace testFS recA.file recPQ.files).2 = ["/p"] := by
  refine ⟨by decide, by decide, by decide,
    c3_merge_error_handling testFS recA recPQ (by decide) (by decide) (by decide), ?_⟩
  decide

/-- C8.  The claim is what the source intends, but `INodeFileList.add`
names the undefined constant `DEBUG` (the import list of `inode.py` has
`DEVEL`, not `DEBUG`) in both the file-not-found handler and the
non-regular-file branch, so adding a non-regular path (here the device
node `/dev0`) or a missing path raises `NameError` instead of skipping
with a diagnostic. -/
theorem c8_add_nameerror :
    INodeFileList.addStr testFS [] "/dev0" = .error (.nameError "DEBUG")
      ∧ INodeFileList.addStr testFS [] "/missing" = .error (.nameError "DEBUG") :=
  ⟨rfl, rfl⟩

/-- C10.  The persistence format records only inode, size, the optional
digests and the paths: the dumped line is independent of `merged_into`,
and every record a line parses to has `merged_into = None` (the
constructor sets it after loading), so a reloaded tombstone is live. -/
theorem c10_codec_no_tombstone :
    (∀ (r : INodeFile) (m : Option Nat),
        INodeFile.dumpLine { r with merged_into := m } = INodeFile.dumpLine r)
      ∧ ∀ (cs : List Char) (r' : INodeFile),
          INodeFile.parseLine cs = some r' → r'.merged_into = none := by
  constructor
  · intro r m; rfl
  · intro cs r' h
    unfold INodeFile.parseLine at h
    split at h
    · split at h
      all_goals first
        | (cases h; rfl)
        | exact absurd h (by simp)
    · exact absurd h (by simp)

/-- C10 witness: dumping a tombstoned copy of `recB` and parsing the line
back yields the live `recB`. -/
theorem c10_codec_no_tombstone_witness :
    INodeFile.parseLine (INodeFile.dumpLine { recB with merged_into := some 1 }) = some recB
      ∧ recB.merged_into = none :=
  ⟨by decide,
   c10_codec_no_tombstone.2 (INodeFile.dumpLine { recB with merged_into := some 1 }) recB
     (by decide)⟩

/-- C1.  After `merge()` on a nonempty collection with pairwise distinct
inodes, every qualifying full-signature class (two or more records of
positive size sharing size, prefix-md5, md5 and sha1 values) keeps exactly
one record in the collection: the member at the last-inserted position
(the class's last element in collection order, which the stable sorts
preserve and `popitem()` removes).  Every other member of the class is
removed from the collection, and appears in the returned merged
collection tombstoned onto that survivor. -/
theorem c1_merge_group_collapse (fs : FS) (c : List INodeFile)
    (hnodup : (c.map INodeFile.inode).Nodup) (hne : c ≠ []) :
    ∃ fs2 c2 merged, INodeFileList.merge fs c = some (fs2, c2, merged)
      ∧ ∀ k, qualifies fs c k →
          ∃ survivor, (classOf fs c k).getLast? = some survivor
            ∧ (∃ r ∈ c2, r.inode = survivor.inode ∧ eqExceptFiles r survivor)
            ∧ ∀ x ∈ classOf fs c k, x ≠ survivor →
                (∀ r ∈ c2, r.inode ≠ x.inode)
                ∧ { x with merged_into := some survivor.inode } ∈ merged := by
  obtain ⟨fs2, upds, Ks, hmerge, hstat, hlen, hupds, hsnd, hcpl⟩ :=
    merge_master fs c hne
  refine ⟨fs2, mergedColl fs c upds Ks, tombFlat fs c Ks, hmerge, ?_⟩
  intro k hk
  have hkKs := hcpl k hk
  have hclne : classOf fs c k ≠ [] := classOf_ne_nil hk
  obtain ⟨survivor, hgl⟩ : ∃ sv, (classOf fs c k).getLast? = some sv := by
    cases hE : (classOf fs c k).getLast? with
    | none => exact absurd (List.getLast?_eq_none_iff.mp hE) hclne
    | some x => exact ⟨x, rfl⟩
  have hsmem : survivor ∈ classOf fs c k := List.mem_of_getLast?_eq_some hgl
  have hsc : survivor ∈ c := mem_classOf_mem hsmem
  refine ⟨survivor, hgl, ?_, ?_⟩
  · have hsorted : survivor ∈ List.insertionSort sizeRel c :=
      (List.perm_insertionSort sizeRel c).mem_iff.mpr hsc
    have hnm : ∀ m ∈ tombFlat fs c Ks, m.inode ≠ survivor.inode :=
      fun m hm => survivor_not_merged hnodup hgl hm
    have hrc2 : ((upds.find? (fun u => decide (u.1 = survivor.inode))).map
          Prod.snd).getD survivor ∈ mergedColl fs c upds Ks :=
      mergedColl_mem.mpr ⟨survivor, hsorted, hnm, rfl⟩
    have hre : eqExceptFiles (((upds.find? (fun u =>
          decide (u.1 = survivor.inode))).map Prod.snd).getD survivor) survivor :=
      find_upd_eqExcept hnodup hupds hsc
    exact ⟨_, hrc2, hre.1, hre⟩
  · intro x hx hxs
    have hxdl : x ∈ (classOf fs c k).dropLast := by
      have hsplit := (List.dropLast_append_getLast? survivor hgl).symm
      rw [hsplit] at hx
      rcases List.mem_append.mp hx with h | h
      · exact h
      · exact absurd (List.mem_singleton.mp h) hxs
    have htomb := tomb_of_dropLast hkKs hgl hxdl
    refine ⟨?_, htomb⟩
    intro r hr hri
    obtain ⟨y, hy1, hy2, hyE⟩ := mergedColl_mem.mp hr
    have hyc : y ∈ c := (List.perm_insertionSort sizeRel c).mem_iff.mp hy1
    have hre : eqExceptFiles r y := by
      rw [hyE]
      exact find_upd_eqExcept hnodup hupds hyc
    apply hy2 _ htomb
    show x.inode = y.inode
    rw [← hri, hre.1]

/-- C1 witness at a three-record collection: inodes 1 and 2 hold identical
content (a qualifying class), inode 4 the same size with different
content. -/
theorem c1_merge_group_collapse_witness :
    (([recA, recB, recD].map INodeFile.inode).Nodup
        ∧ ([recA, recB, recD] : List INodeFile) ≠ [])
    ∧ ∃ fs2 c2 merged,
      INodeFileList.merge testFS [recA, recB, recD] = some (fs2, c2, merged)
        ∧ ∀ k, qualifies testFS [recA, recB, recD] k →
            ∃ survivor,
              (classOf testFS [recA, recB, recD] k).getLast? = some survivor
              ∧ (∃ r ∈ c2, r.inode = survivor.inode ∧ eqExceptFiles r survivor)
              ∧ ∀ x ∈ classOf testFS [recA, recB, recD] k, x ≠ survivor →
                  (∀ r ∈ c2, r.inode ≠ x.inode)
                  ∧ { x with merged_into := some survivor.inode } ∈ merged :=
  ⟨⟨by decide, by decide⟩,
    c1_merge_group_collapse testFS [recA, recB, recD] (by decide) (by decide)⟩

/-- C9.  Merge is idempotent: if a first merge of a nonempty collection
with pairwise distinct inodes returned `(c1, m1)`, a second merge of `c1`
merges nothing -- it returns an empty merged collection and leaves the
records of `c1` unchanged, merely re-sorted by size. -/
theorem c9_merge_idempotent (fs fs1 : FS) (c c1 m1 : List INodeFile)
    (hnodup : (c.map INodeFile.inode).Nodup) (hne : c ≠ [])
    (h1 : INodeFileList.merge fs c = some (fs1, c1, m1)) :
    ∃ fs2, INodeFileList.merge fs1 c1
        = some (fs2, List.insertionSort sizeRel c1, [])
      ∧ (List.insertionSort sizeRel c1).Perm c1 := by
  obtain ⟨fs2', upds, Ks, hmerge, hstat, hlen, hupds, hsnd, hcpl⟩ :=
    merge_master fs c hne
  rw [h1, Option.some.injEq, Prod.mk.injEq, Prod.mk.injEq] at hmerge
  obtain ⟨hfs, hc1E, _⟩ := hmerge
  have hnoq2 : ∀ k, ¬ qualifies fs1 c1 k := by
    intro k
    rw [hfs, hc1E]
    exact merged_no_qualifies hnodup hstat hupds hsnd hcpl k
  have hc1ne : c1 ≠ [] := by
    rw [hc1E]
    exact mergedColl_ne_nil hnodup hsnd hne
  obtain ⟨fs3, upds2, Ks2, hm2, hstat2, hlen2, hupds2, hsnd2, hcpl2⟩ :=
    merge_master fs1 c1 hc1ne
  have hKs2 : Ks2 = [] :=
    List.eq_nil_iff_forall_not_mem.mpr (fun k hk => hnoq2 k (hsnd2 k hk))
  have hupds2nil : upds2 = [] := by
    have h3 := hlen2
    rw [hKs2] at h3
    exact List.length_eq_zero.mp h3
  rw [hKs2, hupds2nil] at hm2
  have hmc : mergedColl fs1 c1 [] [] = List.insertionSort sizeRel c1 := by
    unfold mergedColl
    rw [tombFlat_nil]
    simp
  rw [hmc, tombFlat_nil] at hm2
  exact ⟨fs3, hm2, List.perm_insertionSort sizeRel c1⟩

/-- C9 witness: two same-size records with different content merge to
nothing; merging the result again returns no merged records. -/
theorem c9_merge_idempotent_witness :
    (([recA, recD].map INodeFile.inode).Nodup
      ∧ ([recA, recD] : List INodeFile) ≠ []
      ∧ INodeFileList.merge testFS [recA, recD]
          = some (testFS, [recA, recD], []))
    ∧ ∃ fs2, INodeFileList.merge testFS [recA, recD]
          = some (fs2, List.insertionSort sizeRel [recA, recD], [])
        ∧ (List.insertionSort sizeRel [recA, recD]).Perm [recA, recD] :=
  ⟨⟨by decide, by decide, rfl⟩,
    c9_merge_idempotent testFS testFS [recA, recD] [recA, recD] []
      (by decide) (by decide) rfl⟩

/-- C6 (amended).  `iter_list` applies the size floor for every partition
attribute, not only for `'size'`: over any attribute key and its sort
order, a maximal equal-value run is yielded iff it has more than one
member and its first member's size exceeds `size_limit` (cf. the
counterexample, where an md5 partition with floor 0 drops a two-member
run of empty files). -/
theorem c6_yield_floor_every_attribute {κ : Type} [DecidableEq κ]
    (key : INodeFile → κ) (rel : INodeFile → INodeFile → Prop)
    [DecidableRel rel] (sl : Nat)
    (htot : ∀ a b, rel a b ∨ rel b a)
    (htrans : ∀ a b c2, rel a b → rel b c2 → rel a c2)
    (hcomp : ∀ a b c2, rel a b → rel b c2 → key a = key c2 → key b = key a)
    (c : List INodeFile) (hne : c ≠ []) :
    ∃ groups, iterListBy key rel sl c = some (List.insertionSort rel c, groups)
      ∧ (∀ g ∈ groups, ∃ h t, g = h :: t ∧ t ≠ [] ∧ sl < h.size)
      ∧ ∀ k, 1 < ((List.insertionSort rel c).filter
            (fun x => decide (key x = k))).length →
          (∀ h t, (List.insertionSort rel c).filter
              (fun x => decide (key x = k)) = h :: t → sl < h.size) →
          (List.insertionSort rel c).filter (fun x => decide (key x = k))
            ∈ groups := by
  obtain ⟨groups, heq, hyield, hsound, hcompl⟩ :=
    iterListBy_spec key rel sl htot htrans hcomp c hne
  refine ⟨groups, heq, ?_, ?_⟩
  · intro g hg
    have hyc := hyield g hg
    rcases g with _ | ⟨h, t⟩
    · rw [yieldCondition_nil] at hyc
      exact absurd hyc (by simp)
    · obtain ⟨ht, hsz⟩ := (yieldCondition_cons sl h t).mp hyc
      exact ⟨h, t, rfl, ht, hsz⟩
  · intro k hlen hsz
    refine hcompl k ?_
    rcases hE : (List.insertionSort rel c).filter
        (fun x => decide (key x = k)) with _ | ⟨h, t⟩
    · rw [hE] at hlen
      simp at hlen
    · have ht : t ≠ [] := by
        rw [hE] at hlen
        intro h0
        rw [h0] at hlen
        simp at hlen
      exact (yieldCondition_cons sl h t).mpr ⟨ht, hsz h t hE⟩

/-- C6 witness: a nonzero floor together with an `md5sum` partition. -/
theorem c6_yield_floor_witness :
    ([recA] : List INodeFile) ≠ []
      ∧ ∃ groups,
        iterListBy (INodeFile.mVal testFS) (md5Rel testFS) 5 [recA]
            = some (List.insertionSort (md5Rel testFS) [recA], groups)
          ∧ (∀ g ∈ groups, ∃ h t, g = h :: t ∧ t ≠ [] ∧ 5 < h.size)
          ∧ ∀ k, 1 < ((List.insertionSort (md5Rel testFS) [recA]).filter
                (fun x => decide (INodeFile.mVal testFS x = k))).length →
              (∀ h t, (List.insertionSort (md5Rel testFS) [recA]).filter
                  (fun x => decide (INodeFile.mVal testFS x = k)) = h :: t →
                  5 < h.size) →
              (List.insertionSort (md5Rel testFS) [recA]).filter
                (fun x => decide (INodeFile.mVal testFS x = k)) ∈ groups :=
  ⟨by decide,
    c6_yield_floor_every_attribute (INodeFile.mVal testFS) (md5Rel testFS) 5
      (md5Rel_total testFS) (md5Rel_trans testFS) (md5Rel_anti testFS)
      [recA] (by decide)⟩

/-- C5 (amended).  The original no-raise claim fails twice: on the empty
collection `iter_list` evaluates `value_for_index(0)` before its loop and
the `IndexError` propagates out of `merge()` (see the counterexample), and
an on-demand digest computation opens the record's file, so a missing or
unreadable file there lets the `OSError` propagate out of `merge()` as
well (the specification's ReadFailure).  What holds: on a nonempty
collection whose records all carry cached digests -- so the whole cascade
performs no file read -- the merge pass runs to completion, relink
failures are handled per path, and the merged records are returned. -/
theorem c5_merge_completes (fs : FS) (c : List INodeFile) (hne : c ≠ [])
    (hcached : ∀ r ∈ c, r.pmd5.isSome = true ∧ r.fmd5.isSome = true
      ∧ r.fsha1.isSome = true) :
    ∃ out, INodeFileList.merge fs c = some out := by
  obtain ⟨fs2, upds, Ks, hmerge, _⟩ := merge_master fs c hne
  exact ⟨_, hmerge⟩

/-- C5 witness: a one-record collection with every digest cached merges
(to no merged records). -/
theorem c5_merge_completes_witness :
    (([recAc] : List INodeFile) ≠ []
      ∧ recAc.pmd5.isSome = true ∧ recAc.fmd5.isSome = true
      ∧ recAc.fsha1.isSome = true)
    ∧ ∃ out, INodeFileList.merge testFS [recAc] = some out :=
  ⟨⟨by decide, by decide, by decide, by decide⟩,
    c5_merge_completes testFS [recAc] (by decide)
      (by intro r hr; rcases List.mem_singleton.mp hr with rfl; exact ⟨by decide, by decide, by decide⟩)⟩

/-- C5.  Counterexample to "merge runs to completion for every collection,
including the empty collection": `iter_list` evaluates
`self.value_for_index(0)` before its loop, which on an empty collection
raises `IndexError` out of `merge()`. -/
theorem c5_merge_empty_counterexample :
    INodeFileList.merge testFS [] = none := rfl

/-- C6.  Counterexample: the size floor is applied for every partition
attribute, not only for `size`.  `recZ1` and `recZ2` share their
`md5sum` value, yet partitioning by `md5sum` with floor 0 yields no run
because their size is 0. -/
theorem c6_iterlist_counterexample :
    INodeFile.mVal testFS recZ1 = INodeFile.mVal testFS recZ2
      ∧ iter_list_md5 testFS 0 [recZ1, recZ2] = some ([recZ1, recZ2], []) := by
  decide

end FileMerge
